import Mathlib

/-!
Verification of the md-to-html converter (TypeScript sources: renderer,
converter, CLI) against its natural-language specification.

Strings from the program are modelled as `List Char`.  Each JavaScript
string operation used by the source (`String.prototype.replace` with a
string pattern, `.trim()`, `.slice`, regex scanning with the two concrete
regular expressions of the converter) is embedded as an executable Lean
function.  Stateful or effectful parts (file system, external processes,
the micromark engine, the shiki highlighter) are modelled by explicit
parameters; exceptions are modelled with `Except`; the non-terminating
`while` loop of `extractMermaidDiagrams` is modelled with explicit fuel
(`none` = the loop has not finished within the given fuel, for any fuel).
-/

namespace MdToHtml

/-- Shorthand used throughout: program strings are lists of characters. -/
abbrev Str := List Char

/-- Character list of a Lean string literal. -/
def lit (s : String) : Str := s.toList

/-- Whitespace test modelling the `\s` class of JavaScript regular
expressions and `String.prototype.trim` (ASCII part; the sources only ever
meet ASCII whitespace). -/
def isWs (c : Char) : Bool :=
  c = ' ' || c = '\t' || c = '\n' || c = '\r' || c = '\x0b' || c = '\x0c'

/-- Word character test modelling the `\w` class: `[A-Za-z0-9_]`. -/
def isWordChar (c : Char) : Bool :=
  ('a' ≤ c && c ≤ 'z') || ('A' ≤ c && c ≤ 'Z') || ('0' ≤ c && c ≤ '9') || c = '_'

/-- Length of the maximal run of whitespace characters at the head. -/
def wsRun : Str → Nat
  | [] => 0
  | c :: cs => if isWs c then wsRun cs + 1 else 0

/-- Length of the maximal run of `[\w-]` characters at the head. -/
def wordRun : Str → Nat
  | [] => 0
  | c :: cs => if isWordChar c || c = '-' then wordRun cs + 1 else 0

/-- Length of the maximal run of non-`>` characters at the head
(the `[^>]*` part of the code-block pattern). -/
def nonGtRun : Str → Nat
  | [] => 0
  | c :: cs => if c = '>' then 0 else nonGtRun cs + 1

/-- Boolean list-prefix test (executable). -/
def isPref : Str → Str → Bool
  | [], _ => true
  | _ :: _, [] => false
  | a :: as, b :: bs => a = b && isPref as bs

/-- Drop whitespace from the front: the first half of `String.trim`. -/
def dropWsLeft : Str → Str
  | [] => []
  | c :: cs => if isWs c then dropWsLeft cs else c :: cs

/-- Model of JavaScript `String.prototype.trim`: strip leading and
trailing whitespace. -/
def trimStr (s : Str) : Str :=
  (dropWsLeft ((dropWsLeft s.reverse).reverse))

/-- Index of the leftmost occurrence of `pat` in `s`, if any. -/
def findSub (pat : Str) : Str → Option Nat
  | [] => if isPref pat [] then some 0 else none
  | c :: rest =>
      if isPref pat (c :: rest) then some 0
      else (findSub pat rest).map (· + 1)

/-- The GetSubstitution step of `String.prototype.replace`: expand the
replacement patterns in the replacement text.  For a string search value
there are no capture groups and no named captures, so only `$$` (a
literal dollar), `$&` (the matched text), `` $\x60 `` (the text before
the match) and `$'` (the text after the match) substitute; every other
`$`-sequence stays literal. -/
def expandDollar (repl matched before after : Str) : Str :=
  match repl with
  | [] => []
  | '$' :: '$' :: rest => '$' :: expandDollar rest matched before after
  | '$' :: '&' :: rest => matched ++ expandDollar rest matched before after
  | '$' :: '\x60' :: rest => before ++ expandDollar rest matched before after
  | '$' :: '\'' :: rest => after ++ expandDollar rest matched before after
  | c :: rest => c :: expandDollar rest matched before after

/-- Model of JavaScript `str.replace(pat, repl)` with a string pattern:
replace the leftmost occurrence of `pat` (if any) by `repl`, applying the
GetSubstitution `$`-patterns of the replacement text (`expandDollar`);
the string is returned unchanged when the pattern does not occur. -/
def replaceFirst (s pat repl : Str) : Str :=
  match findSub pat s with
  | none => s
  | some j =>
      s.take j
        ++ expandDollar repl pat (s.take j) (s.drop (j + pat.length))
        ++ s.drop (j + pat.length)

/-- Worker for `replaceAll`.  Every step consumes at least one character
of the subject, so fuel equal to the subject's length always suffices; the
fuel only makes the recursion structural (kernel-reducible). -/
def replaceAllAux : Nat → Str → Str → Str → Str
  | 0, _, _, _ => []
  | _ + 1, [], _, _ => []
  | fuel + 1, c :: rest, pat, repl =>
      if isPref pat (c :: rest) && !pat.isEmpty then
        repl ++ replaceAllAux fuel ((c :: rest).drop pat.length) pat repl
      else c :: replaceAllAux fuel rest pat repl

/-- Model of JavaScript `str.replace(/pat/g, repl)` for a plain (regex-free,
nonempty) pattern: replace every occurrence, scanning left to right,
skipping over each replacement.  The only use is `decodeHtmlEntities`,
whose replacement texts are the single characters `< > & " '`: they
contain no GetSubstitution `$`-pattern, so plain splicing is exact
there. -/
def replaceAll (s pat repl : Str) : Str :=
  replaceAllAux s.length s pat repl

/-- Does `pat` occur somewhere in `s`? -/
def occursIn (s pat : Str) : Bool :=
  (findSub pat s).isSome

/-- Model of `decodeHtmlEntities` from the converter source: five global
replaces applied in the source's order (`&lt;`, `&gt;`, `&amp;`, `&quot;`,
`&#39;`). -/
def decodeHtmlEntities (encoded : Str) : Str :=
  replaceAll
    (replaceAll
      (replaceAll
        (replaceAll
          (replaceAll encoded (lit "&lt;") (lit "<"))
          (lit "&gt;") (lit ">"))
        (lit "&amp;") (lit "&"))
      (lit "&quot;") (lit "\""))
    (lit "&#39;") (lit "'")

/-- Modelled from the spec: the standard HTML escaping of the five
characters `& < > " '` with `&` escaped first.  Escaping character by
character is equivalent to the sequential form (escaping `&` first means
the ampersands introduced by the later entity texts are not re-escaped,
which is exactly what a character-wise map produces). -/
def encodeChar (c : Char) : Str :=
  if c = '&' then lit "&amp;"
  else if c = '<' then lit "&lt;"
  else if c = '>' then lit "&gt;"
  else if c = '"' then lit "&quot;"
  else if c = '\'' then lit "&#39;"
  else [c]

/-- Modelled from the spec: encode a whole string (see `encodeChar`). -/
def encodeHtml (s : Str) : Str :=
  s.foldr (fun c acc => encodeChar c ++ acc) []

/-!
## The mermaid fence pattern

The converter scans markdown with the regular expression
`/```mermaid\s*\n([\s\S]*?)```/g`.  `matchMermaidAt` decides whether the
pattern matches at a fixed position, with the engine's backtracking
discipline: the literal fence head, then greedy `\s*` (longest whitespace
run first, backtracking downwards) followed by a literal newline, then the
lazy body up to the nearest closing triple backtick.  For any whitespace
run only lengths `k` with a newline right after can satisfy `\s*\n`, and
shrinking `k` further never uncovers a new closing fence (the skipped
characters are whitespace, never a backtick), so trying the largest viable
`k` first is exactly the engine's answer.
-/

/-- Try `\n([\s\S]*?)\x60\x60\x60` at offset `k` into `rest` (the text
after the literal fence head).  Returns `(total match length, body)`. -/
def tryBodyAt (rest : Str) (k : Nat) : Option (Nat × Str) :=
  if rest.get? k = some '\n' then
    match findSub (lit "```") (rest.drop (k + 1)) with
    | some j => some (10 + k + 1 + j + 3, (rest.drop (k + 1)).take j)
    | none => none
  else none

/-- Greedy backtracking for `\s*\n…`: try offsets `k, k-1, …, 0`. -/
def greedyWsNl (rest : Str) : Nat → Option (Nat × Str)
  | 0 => tryBodyAt rest 0
  | k + 1 =>
      match tryBodyAt rest (k + 1) with
      | some r => some r
      | none => greedyWsNl rest k

/-- Does the mermaid-fence pattern match at position `i` of `s`?
Returns `(match length, captured body)`. -/
def matchMermaidAt (s : Str) (i : Nat) : Option (Nat × Str) :=
  let t := s.drop i
  if isPref (lit "```mermaid") t then
    greedyWsNl (t.drop 10) (wsRun (t.drop 10))
  else none

/-- Leftmost-match search from position `i` (the semantics of
`pattern.exec` with `lastIndex = i`): scan positions upwards.  Fuel
`s.length + 1 - i` always suffices. -/
def execFromAux (s : Str) : Nat → Nat → Option (Nat × Nat × Str)
  | 0, _ => none
  | fuel + 1, i =>
      match matchMermaidAt s i with
      | some (len, body) => some (i, len, body)
      | none => if i < s.length then execFromAux s fuel (i + 1) else none

/-- Leftmost mermaid-fence match at position `≥ i`:
`(index, length, body)`. -/
def execFrom (s : Str) (i : Nat) : Option (Nat × Nat × Str) :=
  execFromAux s (s.length + 1 - i) i

/-- Successive matches of the mermaid-fence pattern from position `i`,
each search resuming at the previous match's end (the `lastIndex`
discipline of a global regex).  Fueled; one unit of fuel per match. -/
def mermaidFencesFromF (s : Str) : Nat → Nat → List (Nat × Nat × Str)
  | _, 0 => []
  | i, fuel + 1 =>
      match execFrom s i with
      | none => []
      | some (idx, len, body) => (idx, len, body) :: mermaidFencesFromF s (idx + len) fuel

/-- All matches of the mermaid-fence pattern, in source order.  Each match
is at least 14 characters long, so `s.length + 1` units of fuel always
suffice (stability is proved below). -/
def mermaidFences (s : Str) : List (Nat × Nat × Str) :=
  mermaidFencesFromF s 0 (s.length + 1)

/-!
## The extractor

`extractMermaidDiagrams` (converter source, current version) runs a
`while (match !== null)` loop.  Its body trims the captured fence body and,
when the trimmed body is empty, executes `continue` WITHOUT calling
`pattern.exec` again — the loop variable is unchanged and the loop never
advances.  The loop is therefore modelled with fuel: `none` means the loop
has not finished within the given fuel (and on such inputs it never
finishes, for any fuel, as proved below).  The `match.index === undefined`
guard of the source is unrepresentable here (`exec` results always carry an
index) and is dropped.
-/

/-- Record type of the extractor (interface `DiagramInfo`). -/
structure DiagramInfo where
  diagramId : String
  mermaidCode : Str
  startPos : Nat
  endPos : Nat
deriving DecidableEq, Repr

/-- Loop body of `extractMermaidDiagrams`: current `exec` result, the
accumulated records, one unit of fuel per iteration. -/
def extractLoop (s : Str) : Nat → Option (Nat × Nat × Str) → List DiagramInfo → Option (List DiagramInfo)
  | 0, _, _ => none
  | _ + 1, none, acc => some acc
  | fuel + 1, some (idx, len, body), acc =>
      let code := trimStr body
      if code = [] then
        -- `continue` without a new `exec`: the next iteration sees the
        -- very same match.
        extractLoop s fuel (some (idx, len, body)) acc
      else
        let d : DiagramInfo :=
          ⟨"diagram_" ++ toString acc.length, code, idx, idx + len⟩
        extractLoop s fuel (execFrom s (idx + len)) (acc ++ [d])

/-- `extractMermaidDiagrams` with explicit fuel.  `some l` means the JS
function returns `l`; `none` means the loop is still running after `fuel`
iterations. -/
def extractMermaidDiagrams (s : Str) (fuel : Nat) : Option (List DiagramInfo) :=
  extractLoop s fuel (execFrom s 0) []

/-- The extraction loop never finishes, for any amount of fuel. -/
def extractDiverges (s : Str) : Prop :=
  ∀ fuel, extractMermaidDiagrams s fuel = none

/-- Records the extractor should produce for a given fence list, numbering
ids from `n`. -/
def recordsFrom : Nat → List (Nat × Nat × Str) → List DiagramInfo
  | _, [] => []
  | n, (idx, len, body) :: rest =>
      ⟨"diagram_" ++ toString n, trimStr body, idx, idx + len⟩ :: recordsFrom (n + 1) rest

/-!
## The mermaid renderer (renderer source)

`renderMermaidToSvg` performs its setup (lazy `mkdtemp`, `writeFile` of
the diagram source) BEFORE the `try` block; only the CLI invocation and
the output-file existence check sit inside the `try`.  The ambient file
system and process behaviour is a `RenderWorld` parameter; an
`Except.error` result models an exception propagating to the caller.
-/

/-- Mutable state of a `MermaidRenderer` instance: the lazily created
temporary directory. -/
structure RendererState where
  tempDir : Option Str
deriving DecidableEq, Repr

/-- Outcome of the `execFile` invocation of the Mermaid CLI: normal exit,
a timeout error (`code === "ETIMEDOUT"`), or any other error. -/
inductive ExecOutcome
  | ok
  | errTimeout (msg : Str)
  | errOther (msg : Str)
deriving DecidableEq, Repr

/-- Ambient behaviour during one `renderMermaidToSvg` call. -/
structure RenderWorld where
  /-- Result of `mkdtemp` (new directory path, or a thrown error). -/
  mkdtempRes : Except Str Str
  /-- Result of `writeFile path content`. -/
  writeFileRes : Str → Str → Except Str Unit
  /-- Outcome of the `execFileAsync` call on the Mermaid CLI. -/
  execRes : ExecOutcome
  /-- `existsSync` on the expected output file. -/
  existsOut : Str → Bool

/-- Model of `MermaidRenderer.renderMermaidToSvg`.  Returns the updated
state and `some path` on success or `none` on a caught failure;
`Except.error` models an exception escaping to the caller (possible only
in the setup phase, which is outside the `try`). -/
def renderMermaidToSvg (st : RendererState) (w : RenderWorld)
    (mermaidCode : Str) (diagramId : String) :
    Except Str (RendererState × Option Str) :=
  -- setup phase, outside the try: failures propagate as exceptions
  (match st.tempDir with
   | some d => Except.ok d
   | none => w.mkdtempRes).bind fun tempDir =>
  let st2 : RendererState := ⟨some tempDir⟩
  let mermaidFile := tempDir ++ lit "/" ++ diagramId.toList ++ lit ".mmd"
  let outputFile := tempDir ++ lit "/" ++ diagramId.toList ++ lit ".svg"
  (w.writeFileRes mermaidFile mermaidCode).bind fun _ =>
  -- try block: every failure below is caught and becomes the `none` signal
  Except.ok (st2,
    match w.execRes with
    | ExecOutcome.ok => if w.existsOut outputFile then some outputFile else none
    | ExecOutcome.errTimeout _ => none   -- caught: logged as a warning
    | ExecOutcome.errOther _ => none)    -- caught: logged as an error

/-- Ambient behaviour during one `cleanup` call. -/
structure CleanupWorld where
  /-- Result of `rm(tempDir, recursive, force)`. -/
  rmRes : Str → Except Str Unit

/-- Model of `MermaidRenderer.cleanup`: if a temporary directory exists,
try to remove it (a failure is caught and logged), then null the field.
The boolean reports whether a removal was attempted (the only filesystem
action). -/
def cleanup (st : RendererState) (w : CleanupWorld) :
    Except Str (RendererState × Bool) :=
  match st.tempDir with
  | none => Except.ok (st, false)
  | some d =>
      match w.rmRes d with
      | Except.ok _ => Except.ok (⟨none⟩, true)
      | Except.error _ => Except.ok (⟨none⟩, true)  -- caught: logged as a warning

/-- A render world whose `writeFile` always fails (for example a full
disk), everything else healthy. -/
def writeFailWorld : RenderWorld :=
  ⟨Except.ok (lit "/tmp/md-to-html-x1"),
   fun _ _ => Except.error (lit "ENOSPC: no space left on device"),
   ExecOutcome.ok,
   fun _ => true⟩

/-- A fully healthy render world whose output-existence check fails (the
CLI exited zero but produced nothing). -/
def noOutputWorld : RenderWorld :=
  ⟨Except.ok (lit "/tmp/md-to-html-x2"),
   fun _ _ => Except.ok (),
   ExecOutcome.ok,
   fun _ => false⟩

/-!
## Placeholder substitution machinery

The converter twice uses the same two-phase placeholder discipline: a
document is (conceptually) a sequence of inert segments interleaved with
"slots"; each slot holds a unique token which a later pass replaces by its
final value with first-occurrence string replacement.  `weave`/`fill`
describe such interleavings; `SlotStep` is the decidable hygiene condition
(proved by evaluation at every concrete instance) that each single
replacement lands exactly in its own slot, whatever the other slots
currently hold — the formal content of the spec's "unique, parser-inert
placeholder token".
-/

/-- One placeholder substitution: `(token, final value)`. -/
abbrev Sub := Str × Str

/-- Interleave segments and slot contents:
`weave [a0, a1, a2] [x0, x1] = a0 ++ x0 ++ a1 ++ x1 ++ a2`. -/
def weave : List Str → List Str → Str
  | [], _ => []
  | a :: as, [] => a ++ weave as []
  | a :: as, x :: xs => a ++ x ++ weave as xs

/-- Slot contents for a replacement state: `false` = still the token,
`true` = already the final value. -/
def fillVals (subs : List Sub) (bs : List Bool) : List Str :=
  List.zipWith (fun (sb : Sub) (b : Bool) => if b then sb.2 else sb.1) subs bs

/-- The document in a given replacement state. -/
def fill (segs : List Str) (subs : List Sub) (bs : List Bool) : Str :=
  weave segs (fillVals subs bs)

/-- All boolean lists of a given length (replacement states). -/
def allBools : Nat → List (List Bool)
  | 0 => [[]]
  | n + 1 => (allBools n).map (false :: ·) ++ (allBools n).map (true :: ·)

/-- Hygiene of a slot decomposition: in every replacement state, replacing
a still-pending token substitutes exactly its own slot.  Decidable, so a
witness can check it on concrete documents. -/
def SlotStep (segs : List Str) (subs : List Sub) : Prop :=
  ∀ bs ∈ allBools subs.length, ∀ k < subs.length,
    bs.getD k true = false →
      replaceFirst (fill segs subs bs) (subs.getD k ([], [])).1 (subs.getD k ([], [])).2
        = fill segs subs (bs.set k true)

instance SlotStep.decidable (segs : List Str) (subs : List Sub) :
    Decidable (SlotStep segs subs) := by
  unfold SlotStep
  infer_instance

/-- The substitutions still pending in a replacement state. -/
def pending : List Sub → List Bool → List Sub
  | [], _ => []
  | _ :: _, [] => []
  | sb :: subs, b :: bs => if b then pending subs bs else sb :: pending subs bs

/-- Apply a list of `(token, value)` substitutions by repeated
first-occurrence replacement, in list order (the iteration over
`placeholders.entries()` in the converter). -/
def applySubs (h : Str) (l : List Sub) : Str :=
  l.foldl (fun acc sb => replaceFirst acc sb.1 sb.2) h

/-!
## The document assembler (`convertMarkdownToHtml`)

External collaborators are parameters: `fs` is `readFile` (SVG artifacts),
`md` is the micromark engine, `hl` the shiki highlighter.  A JavaScript
`Map` is an association list in insertion order; `mapSet` is `Map.set`
(update in place, else append).
-/

/-- Value type of the `imageReplacements` map: diagram id and artifact
path (empty = render failure). -/
structure Outcome where
  diagramId : String
  imagePath : Str
deriving DecidableEq, Repr

/-- The `imageReplacements` map keyed by `startPos`, as an association
list in insertion/iteration order. -/
abbrev OutcomeMap := List (Nat × Outcome)

/-- JavaScript `Map.set`: overwrite in place if the key exists (keeping
its position), else append. -/
def mapSet {K V : Type} [DecidableEq K] : List (K × V) → K → V → List (K × V)
  | [], k, v => [(k, v)]
  | (k0, v0) :: rest, k, v =>
      if k0 = k then (k0, v) :: rest else (k0, v0) :: mapSet rest k v

/-- The assembler's re-scan: run the fence pattern over the original
markdown and take the first match whose index equals `startPos` (the
inner `while` loop with its `break`). -/
def findFenceAt (s : Str) (startPos : Nat) : Option (Nat × Nat × Str) :=
  (mermaidFences s).find? (fun f => f.1 = startPos)

/-- Inline notice substituted when no artifact path was produced. -/
def renderingFailedNotice : Str :=
  lit "<p><em>[Mermaid diagram - rendering failed]</em></p>"

/-- Inline notice substituted when reading the artifact file failed. -/
def svgReadFailedNotice : Str :=
  lit "<p><em>[Mermaid diagram - failed to read SVG]</em></p>"

/-- The placeholder token synthesized for a diagram id. -/
def mermaidToken (diagramId : String) : Str :=
  lit "MERMAID_PLACEHOLDER_" ++ diagramId.toList

/-- The HTML substituted for one diagram outcome: wrap the artifact
content in a sized `div` on success, a read-failure notice if the read
throws, a rendering-failure notice if the path is empty. -/
def svgHtmlFor (fs : Str → Option Str) (o : Outcome) : Str :=
  if o.imagePath = [] then renderingFailedNotice
  else
    match fs o.imagePath with
    | some svgContent =>
        lit "<div style=\"max-width: 100%; margin: 1em 0;\">" ++ svgContent ++ lit "</div>"
    | none => svgReadFailedNotice

/-- One text splice: replace the half-open interval from `start` to
`stop` by the placeholder (the source's replacement records; their second
field is named `end` there, a Lean keyword). -/
structure Repl where
  start : Nat
  stop : Nat
  placeholder : Str
deriving DecidableEq, Repr

/-- First loop of `convertMarkdownToHtml`: iterate the outcomes map in
order, re-scan for each key, and build the placeholder map and the splice
list. -/
def buildPhase (s : Str) (fs : Str → Option Str) (m : OutcomeMap) :
    List Sub × List Repl :=
  m.foldl
    (fun acc e =>
      match findFenceAt s e.1 with
      | none => acc
      | some f =>
          (mapSet acc.1 (mermaidToken e.2.diagramId) (svgHtmlFor fs e.2),
           acc.2 ++ [⟨f.1, f.1 + f.2.1, mermaidToken e.2.diagramId⟩]))
    ([], [])

/-- One splice: `slice(0, start) + placeholder + slice(end)`. -/
def splice (c : Str) (r : Repl) : Str :=
  c.take r.start ++ r.placeholder ++ c.drop r.stop

/-- `replacements.sort((a, b) => b.start - a.start)`: stable sort,
descending by start offset. -/
def sortDescByStart (l : List Repl) : List Repl :=
  List.insertionSort (fun a b => b.start ≤ a.start) l

/-!
## The static document shell (`wrapInHtmlDocument`)

The template literal of the source, split at its `shikiStyles` and
`content` interpolation points (`HTML_MAX_WIDTH` inlined as `800px`).
-/

def htmlShellA : Str :=
  lit "<!DOCTYPE html>\n"
  ++ lit "<html lang=\"en\">\n"
  ++ lit "<head>\n"
  ++ lit "    <meta charset=\"UTF-8\">\n"
  ++ lit "    <meta name=\"viewport\" content=\"width=device-width, initial-scale=1.0\">\n"
  ++ lit "    <title>Converted Markdown</title>\n"
  ++ lit "    <style>\n"
  ++ lit "        body \x7b\n"
  ++ lit "            font-family: -apple-system, BlinkMacSystemFont, 'Segoe UI', Arial, sans-serif;\n"
  ++ lit "            max-width: 800px;\n"
  ++ lit "            margin: 0 auto;\n"
  ++ lit "            padding: 20px;\n"
  ++ lit "            line-height: 1.6;\n"
  ++ lit "            color: #24292e;\n"
  ++ lit "            background-color: #ffffff;\n"
  ++ lit "        \x7d\n"
  ++ lit "        h1, h2, h3, h4, h5, h6 \x7b\n"
  ++ lit "            margin-top: 1.5em;\n"
  ++ lit "            margin-bottom: 0.5em;\n"
  ++ lit "            font-weight: 600;\n"
  ++ lit "            line-height: 1.25;\n"
  ++ lit "        \x7d\n"
  ++ lit "        h1 \x7b\n"
  ++ lit "            font-size: 2em;\n"
  ++ lit "            border-bottom: 1px solid #eaecef;\n"
  ++ lit "            padding-bottom: 0.3em;\n"
  ++ lit "        \x7d\n"
  ++ lit "        h2 \x7b\n"
  ++ lit "            font-size: 1.5em;\n"
  ++ lit "            border-bottom: 1px solid #eaecef;\n"
  ++ lit "            padding-bottom: 0.3em;\n"
  ++ lit "        \x7d\n"
  ++ lit "        code:not(pre code) \x7b\n"
  ++ lit "            background-color: #f4f4f4;\n"
  ++ lit "            padding: 2px 6px;\n"
  ++ lit "            border-radius: 3px;\n"
  ++ lit "            font-family: 'SFMono-Regular', Consolas, 'Liberation Mono', Menlo, monospace;\n"
  ++ lit "            font-size: 0.9em;\n"
  ++ lit "        \x7d\n"
  ++ lit "        pre.shiki \x7b\n"
  ++ lit "            padding: 16px;\n"
  ++ lit "            border-radius: 6px;\n"
  ++ lit "            overflow-x: auto;\n"
  ++ lit "            line-height: 1.45;\n"
  ++ lit "        \x7d\n"
  ++ lit "        pre.shiki code \x7b\n"
  ++ lit "            background-color: transparent;\n"
  ++ lit "            padding: 0;\n"
  ++ lit "            font-size: 0.9em;\n"
  ++ lit "        \x7d\n"
  ++ lit "        table \x7b\n"
  ++ lit "            border-collapse: collapse;\n"
  ++ lit "            width: 100%;\n"
  ++ lit "            margin: 1em 0;\n"
  ++ lit "        \x7d\n"
  ++ lit "        th, td \x7b\n"
  ++ lit "            border: 1px solid #dfe2e5;\n"
  ++ lit "            padding: 8px 13px;\n"
  ++ lit "            text-align: left;\n"
  ++ lit "        \x7d\n"
  ++ lit "        th \x7b\n"
  ++ lit "            background-color: #f6f8fa;\n"
  ++ lit "            font-weight: 600;\n"
  ++ lit "        \x7d\n"
  ++ lit "        tr:nth-child(2n) \x7b\n"
  ++ lit "            background-color: #f6f8fa;\n"
  ++ lit "        \x7d\n"
  ++ lit "        svg \x7b\n"
  ++ lit "            max-width: 100%;\n"
  ++ lit "            height: auto;\n"
  ++ lit "            margin: 1em 0;\n"
  ++ lit "            display: block;\n"
  ++ lit "        \x7d\n"
  ++ lit "        "

def htmlShellB : Str :=
  lit "\n    </style>\n</head>\n<body>\n"

def htmlShellC : Str :=
  lit "\n</body>\n</html>"

/-- Model of `wrapInHtmlDocument content shikiStyles`. -/
def wrapInHtmlDocument (content : Str) (shikiStyles : Str) : Str :=
  htmlShellA ++ shikiStyles ++ htmlShellB ++ content ++ htmlShellC

/-!
## The code-block highlighter (`highlightCodeBlocks`)

The scan regex matches a `<pre><code>` element whose class declares a
language, tolerating attributes after the class and capturing the body
lazily up to the nearest closing delimiter.  As with the fence pattern,
greedy parts backtrack, but only the maximal runs can be followed by the
required literal character, so the matcher below is deterministic.
-/

/-- Language tag normalization (`lang.toLowerCase()`). -/
def normalizeLanguage (l : Str) : Str :=
  l.map Char.toLower

/-- Record for one scanned code block (interface `CodeBlockInfo`). -/
structure CodeBlockInfo where
  fullMatch : Str
  language : Str
  code : Str
  placeholder : Str
deriving DecidableEq, Repr

/-- Does the code-block pattern match at position `i`?  Returns
`(match length, language, encoded body)`. -/
def matchCodeBlockAt (s : Str) (i : Nat) : Option (Nat × Str × Str) :=
  let t := s.drop i
  if isPref (lit "<pre><code") t then
    let r1 := t.drop 10
    let w := wsRun r1
    if 1 ≤ w ∧ isPref (lit "class=\"language-") (r1.drop w) then
      let u := r1.drop (w + 16)
      let lr := wordRun u
      if 1 ≤ lr ∧ u.get? lr = some '"' then
        let v := u.drop (lr + 1)
        let ar := nonGtRun v
        if v.get? ar = some '>' then
          let b := v.drop (ar + 1)
          match findSub (lit "</code></pre>") b with
          | some j =>
              some (10 + w + 16 + lr + 1 + ar + 1 + j + 13, u.take lr, b.take j)
          | none => none
        else none
      else none
    else none
  else none

/-- Leftmost code-block match at position at least `i` (fueled scan). -/
def execCodeFromAux (s : Str) : Nat → Nat → Option (Nat × Nat × Str × Str)
  | 0, _ => none
  | fuel + 1, i =>
      match matchCodeBlockAt s i with
      | some (len, lang, body) => some (i, len, lang, body)
      | none => if i < s.length then execCodeFromAux s fuel (i + 1) else none

/-- Leftmost code-block match at position at least `i`. -/
def execCodeFrom (s : Str) (i : Nat) : Option (Nat × Nat × Str × Str) :=
  execCodeFromAux s (s.length + 1 - i) i

/-- Successive code-block matches from position `i`, assigning
placeholder indices from `pidx`. -/
def codeBlocksFromF (s : Str) : Nat → Nat → Nat → List CodeBlockInfo
  | _, _, 0 => []
  | i, pidx, fuel + 1 =>
      match execCodeFrom s i with
      | none => []
      | some (idx, len, lang, encoded) =>
          { fullMatch := (s.drop idx).take len
            language := lang
            code := decodeHtmlEntities encoded
            placeholder := lit "CODE_BLOCK_PLACEHOLDER_" ++ (toString pidx).toList }
            :: codeBlocksFromF s (idx + len) (pidx + 1) fuel

/-- The extraction loop of `highlightCodeBlocks`: all code blocks of the
HTML, in order, with sequential placeholders. -/
def scanCodeBlocks (s : Str) : List CodeBlockInfo :=
  codeBlocksFromF s 0 0 (s.length + 1)

/-- The shiki highlighter as seen by the converter: a lazy initialization
result and the `codeToHtml` call (language → code → highlighted HTML,
`Except.error` = the call threw). -/
structure HighlighterModel where
  initRes : Except Str Unit
  codeToHtml : Str → Str → Except Str Str

/-- Final content of one block's placeholder: the highlighter's markup on
success, the original block verbatim on a per-block failure. -/
def hlResult (hl : HighlighterModel) (b : CodeBlockInfo) : Str :=
  match hl.codeToHtml (normalizeLanguage b.language) b.code with
  | Except.ok h => h
  | Except.error _ => b.fullMatch

/-- Model of `highlightCodeBlocks`: scan, early return when no block
matches, initialize the highlighter (failure is re-thrown wrapped),
highlight each block into a placeholder map (falling back to the original
block on per-block failure), then substitute: first every block text by
its placeholder, then every placeholder by its final content.  Shiki uses
inline styles, so the styles component is always empty. -/
def highlightCodeBlocks (html : Str) (hl : HighlighterModel) :
    Except Str (Str × Str) :=
  let codeBlocks := scanCodeBlocks html
  if codeBlocks.isEmpty then Except.ok (html, []) else
  match hl.initRes with
  | Except.error e =>
      Except.error (lit "Failed to initialize Shiki highlighter: " ++ e)
  | Except.ok _ =>
      let highlightedBlocks := codeBlocks.foldl
        (fun acc cb =>
          match hl.codeToHtml (normalizeLanguage cb.language) cb.code with
          | Except.ok h => mapSet acc cb.placeholder h
          | Except.error _ => mapSet acc cb.placeholder cb.fullMatch)
        ([] : List Sub)
      let h1 := codeBlocks.foldl
        (fun h cb => replaceFirst h cb.fullMatch cb.placeholder) html
      let h2 := applySubs h1 highlightedBlocks
      Except.ok (h2, [])

/-- Model of `convertMarkdownToHtml`: splice placeholders over the
original markdown (descending by start), run the markdown engine, replace
each placeholder by its diagram HTML, highlight code blocks, wrap in the
document shell. -/
def convertMarkdownToHtml (s : Str) (m : OutcomeMap) (fs : Str → Option Str)
    (md : Str → Str) (hl : HighlighterModel) : Except Str Str :=
  let bp := buildPhase s fs m
  let processedContent := (sortDescByStart bp.2).foldl splice s
  let htmlContent := md processedContent
  let finalHtml := applySubs htmlContent bp.1
  (highlightCodeBlocks finalHtml hl).map
    (fun hr => wrapInHtmlDocument hr.1 hr.2)

/-!
## The top-level convert operation
-/

/-- Does the path end in `.md`, matching `m`/`d` case-insensitively
(the trailing-extension regex with its `i` flag)? -/
def endsWithMdCI (p : Str) : Bool :=
  match p.reverse with
  | d :: m :: dot :: _ =>
      (d = 'd' || d = 'D') && (m = 'm' || m = 'M') && dot = '.'
  | _ => false

/-- The default output path: the input with a trailing `.md` (matched
case-insensitively) replaced by `.html`; unchanged otherwise. -/
def replaceMdWithHtml (p : Str) : Str :=
  if endsWithMdCI p then p.take (p.length - 3) ++ lit ".html" else p

/-- Result of a completed `convert` run: the `(path, content)` pair
written by `writeFile` and the returned path. -/
structure ConvertResult where
  written : Str × Str
  returned : Str
deriving Repr

/-- Model of `MarkdownToHtmlConverter.convert`.  `render` is the mermaid
renderer (`mermaidCode → diagramId → some artifactPath | none`); the
outer `none` means the extraction loop never returned within `fuel`. -/
def convert (markdownFile : Str) (outputFile : Option Str)
    (fs : Str → Option Str) (render : Str → String → Option Str)
    (md : Str → Str) (hl : HighlighterModel) (fuel : Nat) :
    Option (Except Str ConvertResult) :=
  match fs markdownFile with
  | none => some (Except.error (lit "ENOENT: no such file or directory"))
  | some markdownContent =>
      match extractMermaidDiagrams markdownContent fuel with
      | none => none
      | some diagrams =>
          let imageReplacements : OutcomeMap := diagrams.foldl
            (fun acc d =>
              match render d.mermaidCode d.diagramId with
              | some imagePath => mapSet acc d.startPos ⟨d.diagramId, imagePath⟩
              | none => mapSet acc d.startPos ⟨d.diagramId, []⟩)
            []
          match convertMarkdownToHtml markdownContent imageReplacements fs md hl with
          | Except.error e => some (Except.error e)
          | Except.ok htmlContent =>
              let output := outputFile.getD (replaceMdWithHtml markdownFile)
              some (Except.ok ⟨(output, htmlContent), output⟩)

/-- Remove the first occurrence of an element (instance-free stand-in for
`List.erase`, used only in proofs). -/
def removeFirstSub : List Sub → Sub → List Sub
  | [], _ => []
  | y :: ys, x => if y = x then ys else y :: removeFirstSub ys x

/-- The `(token, value)` pairs the assembler's first loop inserts into its
placeholder map, in iteration order (closed form of `buildPhase`'s first
component, valid when the diagram ids are distinct). -/
def diagramSubs (s : Str) (fs : Str → Option Str) (m : OutcomeMap) : List Sub :=
  m.filterMap (fun e => (findFenceAt s e.1).map
    (fun _ => (mermaidToken e.2.diagramId, svgHtmlFor fs e.2)))

/-- The splice records the assembler's first loop collects, in iteration
order (closed form of `buildPhase`'s second component). -/
def diagramRepls (s : Str) (m : OutcomeMap) : List Repl :=
  m.filterMap (fun e => (findFenceAt s e.1).map
    (fun f => ⟨f.1, f.1 + f.2.1, mermaidToken e.2.diagramId⟩))

/-!
## Concrete instances used by witnesses
-/

/-- A two-diagram markdown document. -/
def twoFenceDoc : Str := lit "A\n```mermaid\nx\n```\nB\n```mermaid\ny\n```\nC"

/-- Outcomes for `twoFenceDoc` in extraction order, both failed. -/
def twoFenceOutcomes : OutcomeMap :=
  [(2, ⟨"diagram_0", []⟩), (21, ⟨"diagram_1", []⟩)]

/-- The same outcomes map iterated in the reverse order. -/
def twoFenceOutcomesRev : OutcomeMap :=
  [(21, ⟨"diagram_1", []⟩), (2, ⟨"diagram_0", []⟩)]

/-- Segments of `twoFenceDoc` around its two diagram slots. -/
def twoFenceSegs : List Str := [lit "A\n", lit "\nB\n", lit "\nC"]

/-- A file system with no readable files. -/
def emptyFs : Str → Option Str := fun _ => none

/-- The identity markdown engine (placeholder-bearing text passes through
unchanged), used by witnesses. -/
def idMd : Str → Str := fun x => x

/-- A highlighter that initializes but fails on every language. -/
def failingHl : HighlighterModel :=
  ⟨Except.ok (), fun _ _ => Except.error (lit "unknown language")⟩

/-- An HTML fragment with two language-tagged code blocks. -/
def twoBlockHtml : Str :=
  lit "<h1>T</h1><pre><code class=\"language-python\">print(1)</code></pre><p>m</p>"
    ++ lit "<pre><code class=\"language-json\">[1]</code></pre>tail"

/-- The code blocks the scan finds in `twoBlockHtml`. -/
def twoBlockInfos : List CodeBlockInfo :=
  [⟨lit "<pre><code class=\"language-python\">print(1)</code></pre>",
    lit "python", lit "print(1)", lit "CODE_BLOCK_PLACEHOLDER_0"⟩,
   ⟨lit "<pre><code class=\"language-json\">[1]</code></pre>",
    lit "json", lit "[1]", lit "CODE_BLOCK_PLACEHOLDER_1"⟩]

/-- Segments of `twoBlockHtml` around its two code blocks. -/
def twoBlockSegs : List Str :=
  [lit "<h1>T</h1>", lit "<p>m</p>", lit "tail"]

/-- A highlighter that succeeds on json and fails on everything else. -/
def jsonOnlyHl : HighlighterModel :=
  ⟨Except.ok (),
   fun lang _ =>
     if lang = lit "json"
     then Except.ok (lit "<pre class=\"shiki\"><code>[1]</code></pre>")
     else Except.error (lit "unknown language")⟩

/-- A file system whose one SVG artifact contains the `$'`
GetSubstitution pattern. -/
def dollarSvgFs : Str → Option Str :=
  fun p => if p = lit "svg0" then some (lit "s$'e") else none

/-- Outcomes for `twoFenceDoc`: the first diagram rendered to `svg0`,
the second failed. -/
def dollarOutcomes : OutcomeMap :=
  [(2, ⟨"diagram_0", lit "svg0"⟩), (21, ⟨"diagram_1", []⟩)]

/-- The same outcomes map iterated in the reverse order. -/
def dollarOutcomesRev : OutcomeMap :=
  [(21, ⟨"diagram_1", []⟩), (2, ⟨"diagram_0", lit "svg0"⟩)]

/-- An HTML fragment with one code block whose escaped body contains the
`$&` GetSubstitution pattern (source code `a$<b`). -/
def dollarBlockHtml : Str :=
  lit "<h1>T</h1><pre><code class=\"language-python\">a$&lt;b</code></pre>tail"

/-- The matched text of `dollarBlockHtml`'s single code block. -/
def dollarBlockFullMatch : Str :=
  lit "<pre><code class=\"language-python\">a$&lt;b</code></pre>"

/-- The document body `convertMarkdownToHtml` produces for
`dollarOutcomes` iterated in extraction order: the `$'` in the SVG
artifact splices in a copy of the following text, and the copy's
`diagram_1` placeholder is then substituted, leaving the original one
behind. -/
def dollarOutputFwd : Str :=
  lit "A\n<div style=\"max-width: 100%; margin: 1em 0;\">s\nB\n"
    ++ lit "<p><em>[Mermaid diagram - rendering failed]</em></p>\nCe</div>\nB\n"
    ++ lit "MERMAID_PLACEHOLDER_diagram_1\nC"

/-- The document body produced for the reverse iteration order: the
`diagram_1` slot is already a notice when the `$'` copy is made, so no
placeholder survives. -/
def dollarOutputRev : Str :=
  lit "A\n<div style=\"max-width: 100%; margin: 1em 0;\">s\nB\n"
    ++ lit "<p><em>[Mermaid diagram - rendering failed]</em></p>\nCe</div>\nB\n"
    ++ lit "<p><em>[Mermaid diagram - rendering failed]</em></p>\nC"

/-- A file system with a single markdown file `notes.txt`. -/
def txtFs : Str → Option Str :=
  fun p => if p = lit "notes.txt" then some (lit "hi") else none

/-- A file system with a single markdown file `doc.MD`. -/
def mdFs : Str → Option Str :=
  fun p => if p = lit "doc.MD" then some (lit "hi") else none

/-- A renderer that fails on every diagram. -/
def noRender : Str → String → Option Str := fun _ _ => none

/-! ### Bounds on the fence matcher -/

lemma isPref_length {p l : Str} (h : isPref p l = true) : p.length ≤ l.length := by
  induction p generalizing l with
  | nil => simp
  | cons a as ih =>
      cases l with
      | nil => simp [isPref] at h
      | cons b bs =>
          simp only [isPref, Bool.and_eq_true] at h
          simpa using Nat.succ_le_succ (ih h.2)

lemma findSub_bound {pat l : Str} {j : Nat} (h : findSub pat l = some j) :
    pat.length + j ≤ l.length := by
  induction l generalizing j with
  | nil =>
      simp only [findSub] at h
      split at h
      · next hp =>
          have := isPref_length hp
          simp at h
          omega
      · exact absurd h (by simp)
  | cons c rest ih =>
      simp only [findSub] at h
      split at h
      · next hp =>
          have := isPref_length hp
          have hj : j = 0 := by simpa using (Option.some.inj h).symm
          simp [hj]
          simpa using this
      · next hp =>
          cases hfs : findSub pat rest with
          | none => rw [hfs] at h; simp at h
          | some j' =>
              rw [hfs] at h
              simp at h
              have := ih hfs
              simp [List.length_cons]
              omega

lemma tryBodyAt_bound {rest : Str} {k len : Nat} {body : Str}
    (h : tryBodyAt rest k = some (len, body)) :
    14 + k ≤ len ∧ len ≤ 10 + rest.length := by
  simp only [tryBodyAt] at h
  split at h
  · next hget =>
      have hk : k < rest.length := by
        rcases List.get?_eq_some.mp hget with ⟨hlt, _⟩
        exact hlt
      cases hfs : findSub (lit "```") (rest.drop (k + 1)) with
      | none => rw [hfs] at h; simp at h
      | some j =>
          rw [hfs] at h
          have hb := findSub_bound hfs
          have hlen : len = 10 + k + 1 + j + 3 := by
            have := (Option.some.inj h)
            exact (congrArg Prod.fst this).symm
          rw [List.length_drop] at hb
          have h3 : (lit "```").length = 3 := by decide
          rw [h3] at hb
          omega
  · exact absurd h (by simp)

lemma greedyWsNl_bound {rest : Str} :
    ∀ {k0 len : Nat} {body : Str}, greedyWsNl rest k0 = some (len, body) →
      14 ≤ len ∧ len ≤ 10 + rest.length := by
  intro k0
  induction k0 with
  | zero =>
      intro len body h
      have := tryBodyAt_bound (show tryBodyAt rest 0 = some (len, body) from h)
      omega
  | succ k ih =>
      intro len body h
      simp only [greedyWsNl] at h
      cases htb : tryBodyAt rest (k + 1) with
      | some r =>
          rw [htb] at h
          cases r with
          | mk l2 b2 =>
              have hb := tryBodyAt_bound htb
              cases h
              omega
      | none =>
          rw [htb] at h
          exact ih h

lemma matchMermaidAt_bound {s : Str} {i len : Nat} {body : Str}
    (h : matchMermaidAt s i = some (len, body)) :
    14 ≤ len ∧ i + len ≤ s.length := by
  simp only [matchMermaidAt] at h
  split at h
  · next hp =>
      have h10 : (lit "```mermaid").length = 10 := by decide
      have hlen := isPref_length hp
      rw [h10, List.length_drop] at hlen
      have hg := greedyWsNl_bound h
      rw [List.length_drop, List.length_drop] at hg
      omega
  · exact absurd h (by simp)

lemma execFromAux_succ (s : Str) (f i : Nat) :
    execFromAux s (f + 1) i
      = match matchMermaidAt s i with
        | some (len, body) => some (i, len, body)
        | none => if i < s.length then execFromAux s f (i + 1) else none := rfl

lemma execFromAux_some {s : Str} :
    ∀ {fuel i idx len : Nat} {body : Str},
      execFromAux s fuel i = some (idx, len, body) →
      i ≤ idx ∧ matchMermaidAt s idx = some (len, body) := by
  intro fuel
  induction fuel with
  | zero => intro i idx len body h; simp [execFromAux] at h
  | succ f ih =>
      intro i idx len body h
      rw [execFromAux_succ] at h
      cases hm : matchMermaidAt s i with
      | some r =>
          obtain ⟨l2, b2⟩ := r
          rw [hm] at h
          simp at h
          obtain ⟨h1, h2, h3⟩ := h
          subst h1; subst h2; subst h3
          exact ⟨Nat.le_refl _, hm⟩
      | none =>
          rw [hm] at h
          simp only at h
          split at h
          · have := ih h
            exact ⟨Nat.le_of_succ_le this.1, this.2⟩
          · exact absurd h (by simp)

lemma execFrom_bound {s : Str} {i idx len : Nat} {body : Str}
    (h : execFrom s i = some (idx, len, body)) :
    i ≤ idx ∧ 14 ≤ len ∧ idx + len ≤ s.length := by
  have h1 := execFromAux_some h
  have h2 := matchMermaidAt_bound h1.2
  exact ⟨h1.1, h2.1, h2.2⟩

/-! ### Stability of the fueled fence scan -/

lemma mermaidFencesFromF_succ (s : Str) (i fuel : Nat) :
    mermaidFencesFromF s i (fuel + 1)
      = match execFrom s i with
        | none => []
        | some (idx, len, body) =>
            (idx, len, body) :: mermaidFencesFromF s (idx + len) fuel := rfl

lemma mermaidFencesFromF_stab {s : Str} :
    ∀ {fuel i : Nat}, s.length - i < fuel →
      mermaidFencesFromF s i fuel = mermaidFencesFromF s i (s.length - i + 1) := by
  intro fuel
  induction fuel using Nat.strong_induction_on with
  | _ fuel ih =>
      intro i hfi
      match fuel, hfi with
      | f + 1, hfi =>
        cases h : execFrom s i with
        | none => simp only [mermaidFencesFromF_succ, h]
        | some r =>
            obtain ⟨idx, len, body⟩ := r
            have hb := execFrom_bound h
            have hi : i < s.length := by omega
            have hnext : s.length - (idx + len) < s.length - i := by omega
            have e1 : mermaidFencesFromF s (idx + len) f
                = mermaidFencesFromF s (idx + len) (s.length - (idx + len) + 1) := by
              apply ih f (Nat.lt_succ_self f)
              omega
            have e2 : mermaidFencesFromF s (idx + len) (s.length - i)
                = mermaidFencesFromF s (idx + len) (s.length - (idx + len) + 1) := by
              apply ih (s.length - i) (by omega)
              omega
            simp only [mermaidFencesFromF_succ, h]
            rw [e1, e2]

lemma mermaidFencesFromF_congr {s : Str} {f g i : Nat}
    (hf : s.length - i < f) (hg : s.length - i < g) :
    mermaidFencesFromF s i f = mermaidFencesFromF s i g := by
  rw [mermaidFencesFromF_stab hf, mermaidFencesFromF_stab hg]

/-! ### The empty-body `continue` never advances the loop -/

lemma extractLoop_stuck {s body : Str} {idx len : Nat}
    (hb : trimStr body = []) :
    ∀ fuel acc, extractLoop s fuel (some (idx, len, body)) acc = none := by
  intro fuel
  induction fuel with
  | zero => intro acc; rfl
  | succ f ih =>
      intro acc
      simp only [extractLoop, hb]
      simpa using ih acc

/-! ### Lockstep correctness of the extractor on all-nonempty inputs -/

lemma extractLoop_succ_none (s : Str) (fuel : Nat) (acc : List DiagramInfo) :
    extractLoop s (fuel + 1) none acc = some acc := rfl

lemma extractLoop_succ_some (s body : Str) (fuel idx len : Nat) (acc : List DiagramInfo) :
    extractLoop s (fuel + 1) (some (idx, len, body)) acc
      = if trimStr body = [] then extractLoop s fuel (some (idx, len, body)) acc
        else extractLoop s fuel (execFrom s (idx + len))
          (acc ++ [⟨"diagram_" ++ toString acc.length, trimStr body, idx, idx + len⟩]) := rfl

lemma extractLoop_complete {s : Str} :
    ∀ (fuel : Nat) (i : Nat) (acc : List DiagramInfo),
      (∀ f ∈ mermaidFencesFromF s i fuel, trimStr f.2.2 ≠ []) →
      mermaidFencesFromF s i fuel = mermaidFencesFromF s i (fuel + 1) →
      extractLoop s (fuel + 1) (execFrom s i) acc
        = some (acc ++ recordsFrom acc.length (mermaidFencesFromF s i fuel)) := by
  intro fuel
  induction fuel with
  | zero =>
      intro i acc _ hstab
      cases h : execFrom s i with
      | none =>
          rw [extractLoop_succ_none]
          simp [recordsFrom, show mermaidFencesFromF s i 0 = [] from rfl]
      | some r =>
          obtain ⟨idx, len, body⟩ := r
          rw [show mermaidFencesFromF s i 0 = [] from rfl] at hstab
          rw [mermaidFencesFromF_succ] at hstab
          rw [h] at hstab
          simp at hstab
  | succ f ih =>
      intro i acc hne hstab
      cases h : execFrom s i with
      | none =>
          rw [extractLoop_succ_none]
          rw [mermaidFencesFromF_succ, h]
          simp [recordsFrom]
      | some r =>
          obtain ⟨idx, len, body⟩ := r
          have hmem : (idx, len, body) ∈ mermaidFencesFromF s i (f + 1) := by
            rw [mermaidFencesFromF_succ, h]
            exact List.mem_cons_self _ _
          have hbody : trimStr body ≠ [] := hne _ hmem
          rw [extractLoop_succ_some, if_neg hbody]
          have hstab' : mermaidFencesFromF s (idx + len) f
              = mermaidFencesFromF s (idx + len) (f + 1) := by
            rw [mermaidFencesFromF_succ, h] at hstab
            rw [mermaidFencesFromF_succ, h] at hstab
            exact (List.cons.inj hstab).2
          have hne' : ∀ g ∈ mermaidFencesFromF s (idx + len) f, trimStr g.2.2 ≠ [] := by
            intro g hg
            apply hne
            rw [mermaidFencesFromF_succ, h]
            exact List.mem_cons_of_mem _ hg
          have hrec := ih (idx + len) (acc ++ [⟨"diagram_" ++ toString acc.length,
              trimStr body, idx, idx + len⟩]) hne' hstab'
          rw [hrec]
          rw [mermaidFencesFromF_succ, h]
          simp [recordsFrom, List.length_append]

/-! ### `recordsFrom` shape lemmas -/

lemma recordsFrom_length (n : Nat) (l : List (Nat × Nat × Str)) :
    (recordsFrom n l).length = l.length := by
  induction l generalizing n with
  | nil => rfl
  | cons x rest ih =>
      obtain ⟨idx, len, body⟩ := x
      simp [recordsFrom, ih]

lemma recordsFrom_getD (n : Nat) (l : List (Nat × Nat × Str)) :
    ∀ k, k < l.length →
      (recordsFrom n l).getD k ⟨"", [], 0, 0⟩
        = ⟨"diagram_" ++ toString (n + k), trimStr (l.getD k (0, 0, [])).2.2,
            (l.getD k (0, 0, [])).1,
            (l.getD k (0, 0, [])).1 + (l.getD k (0, 0, [])).2.1⟩ := by
  induction l generalizing n with
  | nil => intro k hk; simp at hk
  | cons x rest ih =>
      obtain ⟨idx, len, body⟩ := x
      intro k hk
      cases k with
      | zero => simp [recordsFrom]
      | succ k' =>
          simp only [recordsFrom, List.getD_cons_succ]
          rw [ih (n + 1) k' (by simpa using hk)]
          have : n + 1 + k' = n + (k' + 1) := by omega
          rw [this]

/-! ## Claim theorems for the extractor and the entity decoder -/

/-- C3 (code_bug).  The spec claims `decode(encode(s)) == s` for every
string over `< > & " '` and ordinary characters.  The code decodes
`&amp;` before `&quot;` and `&#39;`, so for `s = "&quot;"` (six literal
characters) encoding yields `&amp;quot;` and decoding that yields the one
character `"` instead of `s`: the round trip fails. -/
theorem decode_encode_roundTrip_fails_on_quot :
    encodeHtml (lit "&quot;") = lit "&amp;quot;" ∧
    decodeHtmlEntities (encodeHtml (lit "&quot;")) = lit "\"" ∧
    lit "\"" ≠ lit "&quot;" :=
  ⟨by decide, by decide, by decide⟩

/-- C4 (code_bug).  The spec says a mermaid fence whose body trims to the
empty string is skipped (contributes zero records).  In the code the
empty-body branch executes `continue` without calling `pattern.exec`
again, so the `while` loop never advances: on the 14-character input
"```mermaid\n```" (one fence, empty body) `extractMermaidDiagrams` never
returns, for any amount of fuel. -/
theorem extract_diverges_on_empty_fence :
    extractDiverges (lit "```mermaid\n```") ∧
    mermaidFences (lit "```mermaid\n```") = [(0, 14, [])] := by
  constructor
  · intro fuel
    cases fuel with
    | zero => rfl
    | succ f =>
        show extractLoop _ (f + 1) (execFrom _ 0) [] = none
        rw [show execFrom (lit "```mermaid\n```") 0 = some (0, 14, []) from by decide]
        exact extractLoop_stuck (by decide) _ _
  · decide

/-- C5 (code_bug).  The spec says `extractMermaidDiagrams` terminates on
every input and returns a finite sequence.  On an input whose single
fence has a whitespace-only body, the empty-body `continue` never
advances the loop, so the function never returns (for any fuel). -/
theorem extract_not_terminating_on_whitespace_fence :
    extractDiverges (lit "# A\n\n```mermaid   \n   \n```\n") ∧
    (mermaidFences (lit "# A\n\n```mermaid   \n   \n```\n")).length = 1 := by
  constructor
  · intro fuel
    cases fuel with
    | zero => rfl
    | succ f =>
        show extractLoop _ (f + 1) (execFrom _ 0) [] = none
        rw [show execFrom (lit "# A\n\n```mermaid   \n   \n```\n") 0
            = some (5, 21, []) from by decide]
        exact extractLoop_stuck (by decide) _ _
  · decide

/-- C1 (corrected), counterexample.  The claim — K fences always give K
records `diagram_0 .. diagram_{K-1}` — fails on an input whose second
fence has an empty body: the extractor processes the first fence and then
loops forever (returns nothing at all, for any fuel), although the input
has two fences. -/
theorem extract_claim_fails_with_empty_second_fence :
    extractDiverges (lit "```mermaid\nA\n```\n```mermaid\n\n```\n") ∧
    (mermaidFences (lit "```mermaid\nA\n```\n```mermaid\n\n```\n")).length = 2 := by
  constructor
  · intro fuel
    cases fuel with
    | zero => rfl
    | succ f =>
        show extractLoop _ (f + 1) (execFrom _ 0) [] = none
        rw [show execFrom (lit "```mermaid\nA\n```\n```mermaid\n\n```\n") 0
            = some (0, 16, lit "A\n") from by decide]
        rw [extractLoop_succ_some, if_neg (by decide)]
        rw [show execFrom (lit "```mermaid\nA\n```\n```mermaid\n\n```\n") (0 + 16)
            = some (17, 15, []) from by decide]
        exact extractLoop_stuck (by decide) _ _
  · decide

/-- C1 (corrected), amended claim.  For every markdown input all of whose
mermaid fences have a nonempty trimmed body, `extractMermaidDiagrams`
returns (with sufficient fuel, `length + 2` units) exactly one record per
fence, in source order, with ids `diagram_0 .. diagram_{K-1}` and each
record's `mermaidCode` the fence body with surrounding whitespace
trimmed.  The function of this embedding is pure, so repeated calls agree
definitionally. -/
theorem extract_correct_on_nonempty_fences (s : Str)
    (hne : ∀ f ∈ mermaidFences s, trimStr f.2.2 ≠ []) :
    extractMermaidDiagrams s (s.length + 2) = some (recordsFrom 0 (mermaidFences s)) ∧
    (recordsFrom 0 (mermaidFences s)).length = (mermaidFences s).length ∧
    ∀ k, k < (mermaidFences s).length →
      ((recordsFrom 0 (mermaidFences s)).getD k ⟨"", [], 0, 0⟩).diagramId
          = "diagram_" ++ toString k ∧
      ((recordsFrom 0 (mermaidFences s)).getD k ⟨"", [], 0, 0⟩).mermaidCode
          = trimStr (((mermaidFences s).getD k (0, 0, [])).2.2) := by
  refine ⟨?_, recordsFrom_length 0 _, ?_⟩
  · have hstab : mermaidFencesFromF s 0 (s.length + 1)
        = mermaidFencesFromF s 0 (s.length + 1 + 1) :=
      mermaidFencesFromF_congr (by omega) (by omega)
    have := @extractLoop_complete s (s.length + 1) 0 [] hne hstab
    simpa [extractMermaidDiagrams, mermaidFences] using this
  · intro k hk
    rw [recordsFrom_getD 0 (mermaidFences s) k hk]
    simp

/-- C1 (corrected), witness for the amended theorem at a concrete input
with one nonempty fence. -/
theorem extract_correct_on_nonempty_fences_witness :
    (∀ f ∈ mermaidFences (lit "# T\n```mermaid\nA-->B\n```\n"), trimStr f.2.2 ≠ []) ∧
    extractMermaidDiagrams (lit "# T\n```mermaid\nA-->B\n```\n")
        ((lit "# T\n```mermaid\nA-->B\n```\n").length + 2)
      = some (recordsFrom 0 (mermaidFences (lit "# T\n```mermaid\nA-->B\n```\n"))) :=
  ⟨by decide, (extract_correct_on_nonempty_fences _ (by decide)).1⟩

/-! ## Claim theorems for the renderer -/

/-- C10 (confirmed).  `cleanup` never throws (a failed recursive removal
is caught), always leaves the temporary-directory field null, and a
second call performs no filesystem action (reported boolean `false`) and
also succeeds. -/
theorem cleanup_never_throws_and_idempotent
    (st : RendererState) (w w2 : CleanupWorld) :
    ∃ r, cleanup st w = Except.ok r ∧
      r.1.tempDir = none ∧
      cleanup r.1 w2 = Except.ok (r.1, false) := by
  cases hst : st.tempDir with
  | none =>
      exact ⟨(st, false), by simp [cleanup, hst], hst, by simp [cleanup, hst]⟩
  | some d =>
      cases hrm : w.rmRes d with
      | ok u =>
          exact ⟨(⟨none⟩, true), by simp [cleanup, hst, hrm], rfl, by simp [cleanup]⟩
      | error e =>
          exact ⟨(⟨none⟩, true), by simp [cleanup, hst, hrm], rfl, by simp [cleanup]⟩

/-- C6 (corrected), counterexample.  The claim says `renderMermaidToSvg`
never lets any failure escape as an exception.  But the `writeFile` of
the diagram source happens before the `try` block: in a world where that
write fails, the call propagates the error to the caller instead of
returning the `null` failure signal. -/
theorem render_throws_when_writeFile_fails :
    renderMermaidToSvg ⟨none⟩ writeFailWorld (lit "flowchart LR") "diagram_0"
      = Except.error (lit "ENOSPC: no space left on device") := rfl

/-- C6 (corrected), amended claim.  Provided the setup phase succeeds
(the temporary directory exists or `mkdtemp` succeeds, and `writeFile`
succeeds), `renderMermaidToSvg` never throws: it returns `some path` only
when the CLI ran without error AND the expected output file exists, and
returns the `null` signal (`none`) for each of the three failure classes
(timeout, other invocation error, missing output file). -/
theorem render_never_throws_after_setup
    (st : RendererState) (w : RenderWorld) (c : Str) (id : String)
    (hmk : st.tempDir = none → ∃ d, w.mkdtempRes = Except.ok d)
    (hwf : ∀ p c2, w.writeFileRes p c2 = Except.ok ()) :
    ∃ st2 res, renderMermaidToSvg st w c id = Except.ok (st2, res) ∧
      (res = none ∨
        ∃ p, res = some p ∧ w.execRes = ExecOutcome.ok ∧ w.existsOut p = true) := by
  have hdir : ∃ d, (match st.tempDir with
      | some d => Except.ok d
      | none => w.mkdtempRes) = (Except.ok d : Except Str Str) := by
    cases hst : st.tempDir with
    | some d => exact ⟨d, rfl⟩
    | none => exact hmk hst
  obtain ⟨d, hd⟩ := hdir
  simp only [renderMermaidToSvg, hd, hwf, Except.bind]
  refine ⟨⟨some d⟩, _, rfl, ?_⟩
  cases hex : w.execRes with
  | ok =>
      cases hout : w.existsOut (d ++ lit "/" ++ id.toList ++ lit ".svg") with
      | false => simp [hout]
      | true => exact Or.inr ⟨_, by simp [hout], rfl, hout⟩
  | errTimeout m => simp
  | errOther m => simp

/-- C6 witness: a concrete healthy-setup world whose CLI produced no
output file; the call succeeds (no exception) with the `null` signal. -/
theorem render_never_throws_after_setup_witness :
    ((⟨none⟩ : RendererState).tempDir = none →
        ∃ d, noOutputWorld.mkdtempRes = Except.ok d) ∧
    (∀ p c2, noOutputWorld.writeFileRes p c2 = Except.ok ()) ∧
    ∃ st2 res,
      renderMermaidToSvg ⟨none⟩ noOutputWorld (lit "flowchart LR") "diagram_0"
          = Except.ok (st2, res) ∧
      (res = none ∨
        ∃ p, res = some p ∧ noOutputWorld.execRes = ExecOutcome.ok ∧
          noOutputWorld.existsOut p = true) :=
  ⟨fun _ => ⟨lit "/tmp/md-to-html-x2", rfl⟩, fun _ _ => rfl,
    render_never_throws_after_setup ⟨none⟩ noOutputWorld (lit "flowchart LR")
      "diagram_0" (fun _ => ⟨lit "/tmp/md-to-html-x2", rfl⟩) (fun _ _ => rfl)⟩

/-! ## Lemmas about the placeholder substitution machinery -/

lemma mem_allBools : ∀ (n : Nat) (bs : List Bool), bs.length = n → bs ∈ allBools n := by
  intro n
  induction n with
  | zero =>
      intro bs h
      rw [List.length_eq_zero] at h
      subst h
      simp [allBools]
  | succ n ih =>
      intro bs h
      cases bs with
      | nil => simp at h
      | cons b bs' =>
          have h' : bs'.length = n := by simpa using h
          cases b with
          | false =>
              simp only [allBools, List.mem_append, List.mem_map]
              exact Or.inl ⟨bs', ih bs' h', rfl⟩
          | true =>
              simp only [allBools, List.mem_append, List.mem_map]
              exact Or.inr ⟨bs', ih bs' h', rfl⟩

lemma pending_replicate_false :
    ∀ (subs : List Sub), pending subs (List.replicate subs.length false) = subs := by
  intro subs
  induction subs with
  | nil => rfl
  | cons sb ss ih => simp [pending, List.replicate, ih]

lemma pending_nil_replicate :
    ∀ (subs : List Sub) (bs : List Bool), bs.length = subs.length →
      pending subs bs = [] → bs = List.replicate subs.length true := by
  intro subs
  induction subs with
  | nil =>
      intro bs h _
      have hb : bs = [] := List.length_eq_zero.mp (by simpa using h)
      simp [hb]
  | cons sb ss ih =>
      intro bs hlen hp
      cases bs with
      | nil => simp at hlen
      | cons b bs' =>
          cases b with
          | false => simp [pending] at hp
          | true =>
              simp only [pending] at hp
              have := ih bs' (by simpa using hlen) (by simpa using hp)
              simp [List.replicate, this]

lemma getD_mem_of_lt {α : Type} (d : α) :
    ∀ (l : List α) (k : Nat), k < l.length → l.getD k d ∈ l := by
  intro l
  induction l with
  | nil => intro k hk; simp at hk
  | cons a as ih =>
      intro k hk
      cases k with
      | zero => simp
      | succ k' =>
          simp only [List.getD_cons_succ]
          exact List.mem_cons_of_mem _ (ih k' (by simpa using hk))

lemma pending_mem :
    ∀ (subs : List Sub) (bs : List Bool) (x : Sub), bs.length = subs.length →
      x ∈ pending subs bs →
      ∃ k, k < subs.length ∧ subs.getD k ([], []) = x ∧ bs.getD k true = false := by
  intro subs
  induction subs with
  | nil => intro bs x _ hx; simp [pending] at hx
  | cons sb ss ih =>
      intro bs x hlen hx
      cases bs with
      | nil => simp at hlen
      | cons b bs' =>
          have hlen' : bs'.length = ss.length := by simpa using hlen
          cases b with
          | true =>
              have hx' : x ∈ pending ss bs' := by simpa [pending] using hx
              obtain ⟨k, hk, h1, h2⟩ := ih bs' x hlen' hx'
              exact ⟨k + 1, by simpa using Nat.succ_lt_succ hk, by simpa using h1,
                by simpa using h2⟩
          | false =>
              have hx' : x = sb ∨ x ∈ pending ss bs' := by simpa [pending] using hx
              cases hx' with
              | inl h => exact ⟨0, by simp, by simp [h.symm], by simp⟩
              | inr h =>
                  obtain ⟨k, hk, h1, h2⟩ := ih bs' x hlen' h
                  exact ⟨k + 1, by simpa using Nat.succ_lt_succ hk, by simpa using h1,
                    by simpa using h2⟩

lemma perm_cons_removeFirstSub :
    ∀ (p : List Sub) (x : Sub), x ∈ p → p.Perm (x :: removeFirstSub p x) := by
  intro p
  induction p with
  | nil => intro x hx; simp at hx
  | cons y ys ih =>
      intro x hx
      by_cases h : y = x
      · subst h
        rw [removeFirstSub, if_pos rfl]
      · have hx' : x ∈ ys := by
          cases List.mem_cons.mp hx with
          | inl he => exact absurd he.symm h
          | inr hm => exact hm
        rw [removeFirstSub, if_neg h]
        exact ((ih x hx').cons y).trans (List.Perm.swap x y _)

lemma pending_set :
    ∀ (subs : List Sub) (bs : List Bool) (k : Nat) (x : Sub), subs.Nodup →
      bs.length = subs.length → k < subs.length →
      bs.getD k true = false → subs.getD k ([], []) = x →
      pending subs (bs.set k true) = removeFirstSub (pending subs bs) x := by
  intro subs
  induction subs with
  | nil => intro bs k x _ _ hk; simp at hk
  | cons sb ss ih =>
      intro bs k x hnd hlen hk hbk hsk
      cases bs with
      | nil => simp at hlen
      | cons b bs' =>
          have hlen' : bs'.length = ss.length := by simpa using hlen
          cases k with
          | zero =>
              simp only [List.getD_cons_zero] at hbk hsk
              subst hbk
              subst hsk
              show pending ss bs' = removeFirstSub (sb :: pending ss bs') sb
              rw [removeFirstSub, if_pos rfl]
          | succ k' =>
              have hk' : k' < ss.length := by simpa using hk
              have hbk' : bs'.getD k' true = false := by simpa using hbk
              have hsk' : ss.getD k' ([], []) = x := by simpa using hsk
              have hxss : x ∈ ss := hsk' ▸ getD_mem_of_lt _ ss k' hk'
              have hrec := ih bs' k' x (List.Nodup.of_cons hnd) hlen' hk' hbk' hsk'
              have hset : (b :: bs').set (k' + 1) true = b :: bs'.set k' true := rfl
              cases b with
              | true =>
                  rw [hset]
                  show pending ss (bs'.set k' true) = removeFirstSub (pending ss bs') x
                  exact hrec
              | false =>
                  have hne : sb ≠ x := by
                    intro he
                    exact (List.nodup_cons.mp hnd).1 (he ▸ hxss)
                  rw [hset]
                  show sb :: pending ss (bs'.set k' true)
                      = removeFirstSub (sb :: pending ss bs') x
                  rw [removeFirstSub, if_neg hne, hrec]

lemma applySubs_perm_fill (segs : List Str) (subs : List Sub)
    (hnd : subs.Nodup) (H : SlotStep segs subs) :
    ∀ (l : List Sub) (bs : List Bool), bs.length = subs.length →
      l.Perm (pending subs bs) →
      applySubs (fill segs subs bs) l
        = fill segs subs (List.replicate subs.length true) := by
  intro l
  induction l with
  | nil =>
      intro bs hlen hperm
      have hp : pending subs bs = [] := hperm.symm.eq_nil
      have := pending_nil_replicate subs bs hlen hp
      subst this
      rfl
  | cons x l' ih =>
      intro bs hlen hperm
      have hx : x ∈ pending subs bs := hperm.mem_iff.mp (List.mem_cons_self x l')
      obtain ⟨k, hk, hgetsubs, hgetbs⟩ := pending_mem subs bs x hlen hx
      have hrepl := H bs (mem_allBools _ _ hlen) k hk hgetbs
      rw [hgetsubs] at hrepl
      have hperm' : l'.Perm (pending subs (bs.set k true)) := by
        rw [pending_set subs bs k x hnd hlen hk hgetbs hgetsubs]
        have h1 : (pending subs bs).Perm (x :: removeFirstSub (pending subs bs) x) :=
          perm_cons_removeFirstSub _ x hx
        exact (hperm.trans h1).cons_inv
      have hlen' : (bs.set k true).length = subs.length := by
        simpa using hlen
      have := ih (bs.set k true) hlen' hperm'
      simp only [applySubs, List.foldl_cons] at *
      rw [hrepl]
      exact this

lemma fillVals_replicate_false (subs : List Sub) :
    fillVals subs (List.replicate subs.length false) = subs.map Prod.fst := by
  induction subs with
  | nil => rfl
  | cons sb ss ih => simp [fillVals, List.replicate] at *; exact ih

lemma fillVals_replicate_true (subs : List Sub) :
    fillVals subs (List.replicate subs.length true) = subs.map Prod.snd := by
  induction subs with
  | nil => rfl
  | cons sb ss ih => simp [fillVals, List.replicate] at *; exact ih

/-- Substituting every pending token, in any order, turns the all-token
document into the all-value document. -/
lemma applySubs_of_perm (segs : List Str) (subs l : List Sub)
    (hnd : subs.Nodup) (H : SlotStep segs subs) (hperm : l.Perm subs) :
    applySubs (weave segs (subs.map Prod.fst)) l
      = weave segs (subs.map Prod.snd) := by
  have h1 : fill segs subs (List.replicate subs.length false)
      = weave segs (subs.map Prod.fst) := by
    rw [fill, fillVals_replicate_false]
  have h2 : fill segs subs (List.replicate subs.length true)
      = weave segs (subs.map Prod.snd) := by
    rw [fill, fillVals_replicate_true]
  rw [← h1, ← h2]
  apply applySubs_perm_fill segs subs hnd H l
  · simp
  · rw [pending_replicate_false]
    exact hperm

/-! ## Lemmas about the assembler's first loop and the splice sort -/

lemma mapSet_append_fresh {K V : Type} [DecidableEq K] :
    ∀ (l : List (K × V)) (k : K) (v : V), k ∉ l.map Prod.fst →
      mapSet l k v = l ++ [(k, v)] := by
  intro l
  induction l with
  | nil => intro k v _; rfl
  | cons kv rest ih =>
      intro k v hk
      obtain ⟨k0, v0⟩ := kv
      have hne : k0 ≠ k := by
        intro he
        exact hk (by simp [he])
      simp only [mapSet, if_neg hne, List.cons_append]
      rw [ih k v (by intro hm; exact hk (by simp [hm]))]

lemma buildPhase_fold (s : Str) (fs : Str → Option Str) :
    ∀ (m : OutcomeMap) (acc : List Sub × List Repl),
      (m.map (fun e => mermaidToken e.2.diagramId)).Nodup →
      (∀ e ∈ m, mermaidToken e.2.diagramId ∉ acc.1.map Prod.fst) →
      m.foldl
        (fun acc e =>
          match findFenceAt s e.1 with
          | none => acc
          | some f =>
              (mapSet acc.1 (mermaidToken e.2.diagramId) (svgHtmlFor fs e.2),
               acc.2 ++ [⟨f.1, f.1 + f.2.1, mermaidToken e.2.diagramId⟩]))
        acc
      = (acc.1 ++ diagramSubs s fs m, acc.2 ++ diagramRepls s m) := by
  intro m
  induction m with
  | nil =>
      intro acc _ _
      simp [diagramSubs, diagramRepls]
  | cons e m' ih =>
      intro acc htoks hfresh
      have htoks' : (m'.map (fun e => mermaidToken e.2.diagramId)).Nodup :=
        (List.nodup_cons.mp htoks).2
      have htokhd : mermaidToken e.2.diagramId ∉
          m'.map (fun e => mermaidToken e.2.diagramId) :=
        (List.nodup_cons.mp htoks).1
      rw [List.foldl_cons]
      cases hf : findFenceAt s e.1 with
      | none =>
          simp only [hf]
          rw [ih acc htoks' (fun e' he' => hfresh e' (List.mem_cons_of_mem _ he'))]
          simp [diagramSubs, diagramRepls, List.filterMap_cons, hf]
      | some f =>
          simp only [hf]
          have hfr := mapSet_append_fresh acc.1 (mermaidToken e.2.diagramId)
            (svgHtmlFor fs e.2) (hfresh e (List.mem_cons_self _ _))
          rw [hfr]
          have hfresh' : ∀ e' ∈ m', mermaidToken e'.2.diagramId ∉
              (acc.1 ++ [(mermaidToken e.2.diagramId, svgHtmlFor fs e.2)]).map Prod.fst := by
            intro e' he'
            simp only [List.map_append, List.mem_append, List.map_cons, List.map_nil,
              List.mem_singleton]
            rintro (h1 | h2)
            · exact hfresh e' (List.mem_cons_of_mem _ he') h1
            · exact htokhd (h2 ▸ List.mem_map_of_mem _ he')
          rw [ih _ htoks' hfresh']
          simp [diagramSubs, diagramRepls, List.filterMap_cons, hf]

lemma buildPhase_eq (s : Str) (fs : Str → Option Str) (m : OutcomeMap)
    (htoks : (m.map (fun e => mermaidToken e.2.diagramId)).Nodup) :
    buildPhase s fs m = (diagramSubs s fs m, diagramRepls s m) := by
  have := buildPhase_fold s fs m ([], []) htoks (by simp)
  simpa [buildPhase] using this

lemma findFenceAt_start {s : Str} {p : Nat} {f : Nat × Nat × Str}
    (h : findFenceAt s p = some f) : f.1 = p := by
  have := List.find?_some h
  simpa using this

lemma diagramRepls_start_mem {s : Str} :
    ∀ (m : OutcomeMap) (x : Repl), x ∈ diagramRepls s m → x.start ∈ m.map Prod.fst := by
  intro m
  induction m with
  | nil => intro x hx; simp [diagramRepls] at hx
  | cons e m' ih =>
      intro x hx
      rw [diagramRepls, List.filterMap_cons] at hx
      cases hf : findFenceAt s e.1 with
      | none =>
          rw [hf] at hx
          exact List.mem_cons_of_mem _ (ih x hx)
      | some f =>
          rw [hf] at hx
          simp only [Option.map_some', List.mem_cons] at hx
          cases hx with
          | inl he =>
              have : x.start = f.1 := by rw [he]
              rw [this, findFenceAt_start hf]
              simp
          | inr hm => exact List.mem_cons_of_mem _ (ih x hm)

lemma diagramRepls_starts_nodup {s : Str} :
    ∀ (m : OutcomeMap), (m.map Prod.fst).Nodup →
      ((diagramRepls s m).map Repl.start).Nodup := by
  intro m
  induction m with
  | nil => intro _; simp [diagramRepls]
  | cons e m' ih =>
      intro hk
      have hk' : (m'.map Prod.fst).Nodup := (List.nodup_cons.mp hk).2
      have hkhd : e.1 ∉ m'.map Prod.fst := (List.nodup_cons.mp hk).1
      rw [diagramRepls, List.filterMap_cons]
      cases hf : findFenceAt s e.1 with
      | none => exact ih hk'
      | some f =>
          simp only [Option.map_some', List.map_cons]
          rw [List.nodup_cons]
          constructor
          · intro hm
            rw [findFenceAt_start hf] at hm
            obtain ⟨x, hx, hxs⟩ := List.mem_map.mp hm
            apply hkhd
            rw [← hxs]
            exact diagramRepls_start_mem m' x hx
          · exact ih hk'

lemma diagramSubs_fst_mem {s : Str} {fs : Str → Option Str} :
    ∀ (m : OutcomeMap) (x : Sub), x ∈ diagramSubs s fs m →
      x.1 ∈ m.map (fun e => mermaidToken e.2.diagramId) := by
  intro m
  induction m with
  | nil => intro x hx; simp [diagramSubs] at hx
  | cons e m' ih =>
      intro x hx
      rw [diagramSubs, List.filterMap_cons] at hx
      cases hf : findFenceAt s e.1 with
      | none =>
          rw [hf] at hx
          exact List.mem_cons_of_mem _ (ih x hx)
      | some f =>
          rw [hf] at hx
          simp only [Option.map_some', List.mem_cons] at hx
          cases hx with
          | inl he => simp [he]
          | inr hm => exact List.mem_cons_of_mem _ (ih x hm)

lemma diagramSubs_fst_nodup {s : Str} {fs : Str → Option Str} :
    ∀ (m : OutcomeMap), (m.map (fun e => mermaidToken e.2.diagramId)).Nodup →
      ((diagramSubs s fs m).map Prod.fst).Nodup := by
  intro m
  induction m with
  | nil => intro _; simp [diagramSubs]
  | cons e m' ih =>
      intro hk
      have hk' := (List.nodup_cons.mp hk).2
      have hkhd := (List.nodup_cons.mp hk).1
      rw [diagramSubs, List.filterMap_cons]
      cases hf : findFenceAt s e.1 with
      | none => exact ih hk'
      | some f =>
          simp only [Option.map_some', List.map_cons]
          rw [List.nodup_cons]
          constructor
          · intro hm
            obtain ⟨x, hx, hxs⟩ := List.mem_map.mp hm
            apply hkhd
            show mermaidToken e.2.diagramId ∈ List.map (fun e => mermaidToken e.2.diagramId) m'
            rw [← hxs]
            exact diagramSubs_fst_mem m' x hx
          · exact ih hk'

lemma sortDesc_perm (l : List Repl) : (sortDescByStart l).Perm l :=
  List.perm_insertionSort _ l

lemma sortDesc_sorted (l : List Repl) :
    (sortDescByStart l).Sorted (fun a b => b.start ≤ a.start) := by
  haveI : IsTotal Repl (fun a b => b.start ≤ a.start) :=
    ⟨fun a b => (Nat.le_total b.start a.start).elim Or.inl Or.inr⟩
  haveI : IsTrans Repl (fun a b => b.start ≤ a.start) :=
    ⟨fun _ _ _ h1 h2 => Nat.le_trans h2 h1⟩
  exact List.sorted_insertionSort _ l

lemma sorted_strict_of_nodup {l : List Repl}
    (hnd : (l.map Repl.start).Nodup)
    (hs : l.Sorted (fun a b => b.start ≤ a.start)) :
    l.Sorted (fun a b => b.start < a.start) := by
  have hne : l.Pairwise (fun a b => a.start ≠ b.start) :=
    (List.pairwise_map.mp hnd)
  exact (hs.and hne).imp (fun h => Nat.lt_of_le_of_ne h.1 (fun he => h.2 he.symm))

lemma sortDesc_eq_of_perm {r1 r2 : List Repl} (hp : r1.Perm r2)
    (hnd : (r1.map Repl.start).Nodup) :
    sortDescByStart r1 = sortDescByStart r2 := by
  haveI : IsAntisymm Repl (fun a b => b.start < a.start) :=
    ⟨fun a b h1 h2 => absurd (Nat.lt_trans h1 h2) (Nat.lt_irrefl _)⟩
  have hnd1 : ((sortDescByStart r1).map Repl.start).Nodup :=
    (((sortDesc_perm r1).map Repl.start).nodup_iff).mpr hnd
  have hnd2' : (r2.map Repl.start).Nodup := ((hp.map Repl.start).nodup_iff).mp hnd
  have hnd2 : ((sortDescByStart r2).map Repl.start).Nodup :=
    (((sortDesc_perm r2).map Repl.start).nodup_iff).mpr hnd2'
  exact List.eq_of_perm_of_sorted
    ((sortDesc_perm r1).trans (hp.trans (sortDesc_perm r2).symm))
    (sorted_strict_of_nodup hnd1 (sortDesc_sorted r1))
    (sorted_strict_of_nodup hnd2 (sortDesc_sorted r2))

/-! ## Occurrence lemmas -/

lemma isPref_self_append : ∀ (p t : Str), isPref p (p ++ t) = true := by
  intro p
  induction p with
  | nil => intro t; rfl
  | cons a as ih => intro t; simp [isPref, ih]

lemma isPref_append_drop : ∀ (p s : Str), isPref p s = true → p ++ s.drop p.length = s := by
  intro p
  induction p with
  | nil => intro s _; simp
  | cons a as ih =>
      intro s h
      cases s with
      | nil => simp [isPref] at h
      | cons b bs =>
          simp only [isPref, Bool.and_eq_true, decide_eq_true_eq] at h
          obtain ⟨h1, h2⟩ := h
          subst h1
          simpa using ih bs h2

lemma occursIn_of_isPref {s pat : Str} (h : isPref pat s = true) :
    occursIn s pat = true := by
  cases s with
  | nil => simp [occursIn, findSub, h]
  | cons c rest => simp [occursIn, findSub, h]

lemma occursIn_append_self : ∀ (x pat y : Str), occursIn (x ++ (pat ++ y)) pat = true := by
  intro x
  induction x with
  | nil =>
      intro pat y
      exact occursIn_of_isPref (isPref_self_append pat y)
  | cons c x' ih =>
      intro pat y
      simp only [List.cons_append, occursIn, findSub]
      split
      · simp
      · have := ih pat y
        simp only [occursIn] at this
        simpa using this

lemma findSub_decomp : ∀ (l pat : Str) (j : Nat), findSub pat l = some j →
    l = l.take j ++ pat ++ l.drop (j + pat.length) := by
  intro l
  induction l with
  | nil =>
      intro pat j h
      simp only [findSub] at h
      split at h
      · next hp =>
          cases pat with
          | nil => simp
          | cons a as => simp [isPref] at hp
      · exact absurd h (by simp)
  | cons c rest ih =>
      intro pat j h
      simp only [findSub] at h
      split at h
      · next hp =>
          have hj : j = 0 := by simpa using (Option.some.inj h).symm
          subst hj
          simpa using (isPref_append_drop pat (c :: rest) hp).symm
      · next hp =>
          cases hfs : findSub pat rest with
          | none => rw [hfs] at h; simp at h
          | some j' =>
              rw [hfs] at h
              simp at h
              subst h
              have := ih pat j' hfs
              calc c :: rest = c :: (rest.take j' ++ pat ++ rest.drop (j' + pat.length)) := by
                    rw [← this]
                _ = (c :: rest).take (j' + 1) ++ pat
                      ++ (c :: rest).drop (j' + 1 + pat.length) := by
                    rw [show j' + 1 + pat.length = (j' + pat.length) + 1 by omega]
                    simp [List.take_succ_cons, List.drop_succ_cons]

lemma occursIn_embed (x y : Str) {c pat : Str} (h : occursIn c pat = true) :
    occursIn (x ++ c ++ y) pat = true := by
  obtain ⟨j, hj⟩ := Option.isSome_iff_exists.mp h
  have hd := findSub_decomp c pat j hj
  rw [hd]
  have := occursIn_append_self (x ++ c.take j) pat (c.drop (j + pat.length) ++ y)
  simpa [List.append_assoc] using this

/-! ## Claim theorem for the assembler's order independence -/

lemma wrapInHtmlDocument_ne_of_ne {a b : Str} (hne : a ≠ b) :
    wrapInHtmlDocument a [] ≠ wrapInHtmlDocument b [] := by
  intro heq
  simp only [wrapInHtmlDocument] at heq
  exact hne (List.append_cancel_left (List.append_cancel_right heq))

set_option maxRecDepth 40000 in
/-- C2 (corrected), counterexample.  `String.replace` applies the
GetSubstitution patterns to its replacement text, so when a rendered SVG
artifact contains `$'` the substituted diagram HTML splices in a copy of
the document text following the placeholder — including placeholder
tokens not yet substituted.  On `twoFenceDoc` with the first diagram's
artifact content `s$'e` and the second diagram failed, iterating the
outcomes map in extraction order leaves a stray
`MERMAID_PLACEHOLDER_diagram_1` token in the output while the reverse
order does not: the two outputs differ, refuting order independence as
claimed. -/
theorem convertMarkdownToHtml_order_dependent_with_dollar_artifact :
    convertMarkdownToHtml twoFenceDoc dollarOutcomes dollarSvgFs idMd failingHl
      = Except.ok (wrapInHtmlDocument dollarOutputFwd []) ∧
    convertMarkdownToHtml twoFenceDoc dollarOutcomesRev dollarSvgFs idMd failingHl
      = Except.ok (wrapInHtmlDocument dollarOutputRev []) ∧
    wrapInHtmlDocument dollarOutputFwd [] ≠ wrapInHtmlDocument dollarOutputRev [] ∧
    occursIn dollarOutputFwd (lit "MERMAID_PLACEHOLDER_diagram_1") = true ∧
    occursIn dollarOutputRev (lit "MERMAID_PLACEHOLDER_diagram_1") = false :=
  ⟨rfl, rfl, wrapInHtmlDocument_ne_of_ne (by decide), by decide, by decide⟩

/-- C2 (corrected), amended claim.  For any markdown input and any two
iteration orders of the same outcomes map (distinct start-offset keys,
distinct diagram ids), `convertMarkdownToHtml` produces identical output
provided every placeholder replacement lands exactly in its own slot (the
`hfill`/`SlotStep` hygiene: unique, parser-inert tokens carried through
the markdown engine, and substituted diagram HTML free of interfering
GetSubstitution `$`-patterns — the counterexample above shows artifact
content with `$'` makes the output genuinely iteration-order-dependent);
internally the collected `(start, stop, placeholder)` splices are applied
in strictly descending start-offset order.  The hypotheses are checked by
evaluation in the witness. -/
theorem convertMarkdownToHtml_order_independent
    (s : Str) (fs : Str → Option Str) (md : Str → Str) (hl : HighlighterModel)
    (l1 l2 : OutcomeMap) (segs : List Str)
    (hperm : l1.Perm l2)
    (hkeys : (l1.map Prod.fst).Nodup)
    (htoks : (l1.map (fun e => mermaidToken e.2.diagramId)).Nodup)
    (hfill : md ((sortDescByStart (diagramRepls s l1)).foldl splice s)
        = weave segs ((diagramSubs s fs l1).map Prod.fst))
    (H : SlotStep segs (diagramSubs s fs l1)) :
    convertMarkdownToHtml s l1 fs md hl = convertMarkdownToHtml s l2 fs md hl ∧
    (sortDescByStart (diagramRepls s l1)).Sorted (fun a b => b.start < a.start) := by
  have htoks2 : (l2.map (fun e => mermaidToken e.2.diagramId)).Nodup :=
    ((hperm.map _).nodup_iff).mp htoks
  have hbp1 := buildPhase_eq s fs l1 htoks
  have hbp2 := buildPhase_eq s fs l2 htoks2
  have hrperm : (diagramRepls s l1).Perm (diagramRepls s l2) :=
    hperm.filterMap _
  have hstarts : ((diagramRepls s l1).map Repl.start).Nodup :=
    diagramRepls_starts_nodup l1 hkeys
  have hsort : sortDescByStart (diagramRepls s l1) = sortDescByStart (diagramRepls s l2) :=
    sortDesc_eq_of_perm hrperm hstarts
  have hsubs_nodup_fst : ((diagramSubs s fs l1).map Prod.fst).Nodup :=
    diagramSubs_fst_nodup l1 htoks
  have hsubs_nodup : (diagramSubs s fs l1).Nodup := hsubs_nodup_fst.of_map
  have hsperm : (diagramSubs s fs l2).Perm (diagramSubs s fs l1) :=
    (hperm.symm).filterMap _
  constructor
  · simp only [convertMarkdownToHtml, hbp1, hbp2]
    rw [← hsort]
    have e1 : applySubs (md ((sortDescByStart (diagramRepls s l1)).foldl splice s))
        (diagramSubs s fs l1) = weave segs ((diagramSubs s fs l1).map Prod.snd) := by
      rw [hfill]
      exact applySubs_of_perm segs _ _ hsubs_nodup H (List.Perm.refl _)
    have e2 : applySubs (md ((sortDescByStart (diagramRepls s l1)).foldl splice s))
        (diagramSubs s fs l2) = weave segs ((diagramSubs s fs l1).map Prod.snd) := by
      rw [hfill]
      exact applySubs_of_perm segs _ _ hsubs_nodup H hsperm
    rw [e1, e2]
  · exact sorted_strict_of_nodup
      ((((sortDesc_perm _).map Repl.start).nodup_iff).mpr hstarts)
      (sortDesc_sorted _)

/-- C2 witness for the amended claim: a three-segment, two-diagram
document whose outcomes map is iterated in two different key orders; the
hygiene hypotheses hold by evaluation and the outputs coincide. -/
theorem convertMarkdownToHtml_order_independent_witness :
    twoFenceOutcomes.Perm twoFenceOutcomesRev ∧
    (twoFenceOutcomes.map Prod.fst).Nodup ∧
    (twoFenceOutcomes.map (fun e => mermaidToken e.2.diagramId)).Nodup ∧
    idMd ((sortDescByStart (diagramRepls twoFenceDoc twoFenceOutcomes)).foldl
        splice twoFenceDoc)
      = weave twoFenceSegs
          ((diagramSubs twoFenceDoc emptyFs twoFenceOutcomes).map Prod.fst) ∧
    SlotStep twoFenceSegs (diagramSubs twoFenceDoc emptyFs twoFenceOutcomes) ∧
    convertMarkdownToHtml twoFenceDoc twoFenceOutcomes emptyFs idMd failingHl
      = convertMarkdownToHtml twoFenceDoc twoFenceOutcomesRev emptyFs idMd failingHl :=
  ⟨by decide, by decide, by decide, by decide, by decide,
    (convertMarkdownToHtml_order_independent twoFenceDoc emptyFs idMd failingHl
      twoFenceOutcomes twoFenceOutcomesRev twoFenceSegs
      (by decide) (by decide) (by decide) (by decide) (by decide)).1⟩

/-! ## Claim theorem for completion under all-failed renders -/

/-- C7 (confirmed).  When every outcome in the map is a failed render
(empty artifact path), `convertMarkdownToHtml` still completes with
`Except.ok`: every diagram slot is substituted by the literal failure
marker `[Mermaid diagram - rendering failed]` notice (in place of its
fence), no per-item failure aborts the others or the document, and the
output contains the marker text.  Hygiene of the placeholder tokens is
assumed as in C2 and checked by evaluation in the witness. -/
theorem convertMarkdownToHtml_completes_when_all_renders_fail
    (s : Str) (m : OutcomeMap) (fs : Str → Option Str) (md : Str → Str)
    (hl : HighlighterModel) (segs : List Str)
    (hfail : ∀ e ∈ m, e.2.imagePath = [])
    (htoks : (m.map (fun e => mermaidToken e.2.diagramId)).Nodup)
    (hfound : ∀ e ∈ m, (findFenceAt s e.1).isSome = true)
    (hsegs : segs.length = (diagramSubs s fs m).length + 1)
    (hfill : md ((sortDescByStart (diagramRepls s m)).foldl splice s)
        = weave segs ((diagramSubs s fs m).map Prod.fst))
    (H : SlotStep segs (diagramSubs s fs m))
    (hnb : scanCodeBlocks (weave segs ((diagramSubs s fs m).map Prod.snd)) = []) :
    convertMarkdownToHtml s m fs md hl
      = Except.ok (wrapInHtmlDocument
          (weave segs ((diagramSubs s fs m).map Prod.snd)) []) ∧
    (∀ sub ∈ diagramSubs s fs m, sub.2 = renderingFailedNotice) ∧
    (m ≠ [] → occursIn (wrapInHtmlDocument
        (weave segs ((diagramSubs s fs m).map Prod.snd)) [])
        renderingFailedNotice = true) := by
  have hsubsv : ∀ sub ∈ diagramSubs s fs m, sub.2 = renderingFailedNotice := by
    intro sub hsub
    obtain ⟨e, he, hg⟩ := List.mem_filterMap.mp hsub
    cases hf : findFenceAt s e.1 with
    | none => rw [hf] at hg; simp at hg
    | some f =>
        rw [hf] at hg
        simp only [Option.map_some'] at hg
        have : sub = (mermaidToken e.2.diagramId, svgHtmlFor fs e.2) :=
          (Option.some.inj hg).symm
        rw [this]
        show svgHtmlFor fs e.2 = renderingFailedNotice
        rw [svgHtmlFor, if_pos (hfail e he)]
  have hsubs_nodup : (diagramSubs s fs m).Nodup :=
    (diagramSubs_fst_nodup m htoks).of_map
  refine ⟨?_, hsubsv, ?_⟩
  · simp only [convertMarkdownToHtml, buildPhase_eq s fs m htoks]
    have e1 : applySubs (md ((sortDescByStart (diagramRepls s m)).foldl splice s))
        (diagramSubs s fs m) = weave segs ((diagramSubs s fs m).map Prod.snd) := by
      rw [hfill]
      exact applySubs_of_perm segs _ _ hsubs_nodup H (List.Perm.refl _)
    rw [e1]
    simp [highlightCodeBlocks, hnb, Except.map]
  · intro hm
    cases m with
    | nil => exact absurd rfl hm
    | cons e m' =>
        have hsome := hfound e (List.mem_cons_self _ _)
        obtain ⟨f, hf⟩ := Option.isSome_iff_exists.mp hsome
        have hcons : diagramSubs s fs (e :: m')
            = (mermaidToken e.2.diagramId, svgHtmlFor fs e.2) :: diagramSubs s fs m' := by
          rw [diagramSubs, List.filterMap_cons, hf]
          rfl
        cases segs with
        | nil =>
            rw [hcons] at hsegs
            simp at hsegs
        | cons a as =>
            have hv : svgHtmlFor fs e.2 = renderingFailedNotice := by
              rw [svgHtmlFor, if_pos (hfail e (List.mem_cons_self _ _))]
            have hw : weave (a :: as) ((diagramSubs s fs (e :: m')).map Prod.snd)
                = a ++ (renderingFailedNotice
                    ++ weave as ((diagramSubs s fs m').map Prod.snd)) := by
              rw [hcons]
              simp only [List.map_cons]
              rw [weave, hv]
              simp [List.append_assoc]
            rw [wrapInHtmlDocument, hw]
            have hocc : occursIn (a ++ (renderingFailedNotice
                ++ weave as ((diagramSubs s fs m').map Prod.snd)))
                renderingFailedNotice = true := by
              have := occursIn_append_self a renderingFailedNotice
                (weave as ((diagramSubs s fs m').map Prod.snd))
              exact this
            have := occursIn_embed (htmlShellA ++ [] ++ htmlShellB) htmlShellC hocc
            simpa [List.append_assoc] using this

/-- C7 witness: the two-diagram document with both renders failed; the
conversion completes and the output contains the failure marker. -/
theorem convertMarkdownToHtml_all_failed_witness :
    (∀ e ∈ twoFenceOutcomes, e.2.imagePath = []) ∧
    (∀ e ∈ twoFenceOutcomes, (findFenceAt twoFenceDoc e.1).isSome = true) ∧
    convertMarkdownToHtml twoFenceDoc twoFenceOutcomes emptyFs idMd failingHl
      = Except.ok (wrapInHtmlDocument
          (weave twoFenceSegs
            ((diagramSubs twoFenceDoc emptyFs twoFenceOutcomes).map Prod.snd)) []) ∧
    occursIn (wrapInHtmlDocument
        (weave twoFenceSegs
          ((diagramSubs twoFenceDoc emptyFs twoFenceOutcomes).map Prod.snd)) [])
      renderingFailedNotice = true :=
  have h := convertMarkdownToHtml_completes_when_all_renders_fail
    twoFenceDoc twoFenceOutcomes emptyFs idMd failingHl twoFenceSegs
    (by decide) (by decide) (by decide) (by decide) (by decide) (by decide) (by decide)
  ⟨by decide, by decide, h.1, h.2.2 (by decide)⟩

/-! ## Claim theorem for per-block highlighting fallback -/

lemma foldl_mapSet_fresh {V : Type} :
    ∀ (l : List (Str × V)) (acc : List (Str × V)),
      (l.map Prod.fst).Nodup →
      (∀ p ∈ l, p.1 ∉ acc.map Prod.fst) →
      l.foldl (fun acc p => mapSet acc p.1 p.2) acc = acc ++ l := by
  intro l
  induction l with
  | nil => intro acc _ _; simp
  | cons p l' ih =>
      intro acc hnd hfresh
      rw [List.foldl_cons]
      rw [mapSet_append_fresh acc p.1 p.2 (hfresh p (List.mem_cons_self _ _))]
      have hfresh' : ∀ q ∈ l', q.1 ∉ (acc ++ [(p.1, p.2)]).map Prod.fst := by
        intro q hq
        simp only [List.map_append, List.mem_append, List.map_cons, List.map_nil,
          List.mem_singleton]
        rintro (h1 | h2)
        · exact hfresh q (List.mem_cons_of_mem _ hq) h1
        · exact (List.nodup_cons.mp hnd).1 (h2 ▸ List.mem_map_of_mem _ hq)
      rw [ih _ (List.nodup_cons.mp hnd).2 hfresh']
      simp

set_option maxRecDepth 40000 in
/-- C8 (corrected), counterexample.  On a per-block failure the code
re-inserts the original block with `String.replace`, whose replacement
text is `$`-expanded: a failed block whose escaped body contains `$&`
(source `a$<b` escapes to `a$&lt;b`) is not restored byte-for-byte — the
`$&` expands to the matched placeholder, leaving
`aCODE_BLOCK_PLACEHOLDER_0lt;b` in the output in place of the original
block text, refuting the claim as stated. -/
theorem highlightCodeBlocks_fallback_not_verbatim_with_dollar :
    occursIn dollarBlockHtml dollarBlockFullMatch = true ∧
    (highlightCodeBlocks dollarBlockHtml failingHl).toOption.map
        (fun r => occursIn r.1 dollarBlockFullMatch) = some false ∧
    (highlightCodeBlocks dollarBlockHtml failingHl).toOption.map
        (fun r => occursIn r.1 (lit "CODE_BLOCK_PLACEHOLDER_0")) = some true :=
  ⟨by decide, by decide, by decide⟩

/-- C8 (corrected), amended claim.  If highlighting fails for some
blocks, each failed block's original `<pre><code class="language-X">`
text reappears byte-for-byte in its original slot of the output, while
every other block is replaced by the highlighter's markup, provided the
substituted texts are hygienic (the `SlotStep` hypotheses: in particular
free of interfering GetSubstitution `$`-patterns, which the
counterexample above shows can corrupt the fallback); per-block failures
are isolated and never abort the batch (`Except.ok`).  The decomposition
and hygiene hypotheses are evaluated in the witness. -/
theorem highlightCodeBlocks_per_block_fallback
    (html : Str) (hl : HighlighterModel) (segs : List Str)
    (blocks : List CodeBlockInfo)
    (hscan : scanCodeBlocks html = blocks)
    (hne : blocks ≠ [])
    (hinit : hl.initRes = Except.ok ())
    (hnd1 : (blocks.map CodeBlockInfo.fullMatch).Nodup)
    (hnd2 : (blocks.map CodeBlockInfo.placeholder).Nodup)
    (hdecomp : html = weave segs (blocks.map CodeBlockInfo.fullMatch))
    (H1 : SlotStep segs (blocks.map (fun b => (b.fullMatch, b.placeholder))))
    (H2 : SlotStep segs (blocks.map (fun b => (b.placeholder, hlResult hl b)))) :
    highlightCodeBlocks html hl
      = Except.ok (weave segs (blocks.map (hlResult hl)), []) ∧
    ∀ b ∈ blocks, ∀ e,
      hl.codeToHtml (normalizeLanguage b.language) b.code = Except.error e →
        hlResult hl b = b.fullMatch := by
  constructor
  · have hie : blocks.isEmpty = false := by
      cases blocks with
      | nil => exact absurd rfl hne
      | cons _ _ => rfl
    have hnd1' : ((blocks.map (fun b => (b.fullMatch, b.placeholder))).map Prod.fst).Nodup := by
      rw [List.map_map]
      exact hnd1
    have hnd2' : ((blocks.map (fun b => (b.placeholder, hlResult hl b))).map Prod.fst).Nodup := by
      rw [List.map_map]
      exact hnd2
    have hph1 : blocks.foldl (fun h cb => replaceFirst h cb.fullMatch cb.placeholder) html
        = weave segs (blocks.map CodeBlockInfo.placeholder) := by
      have h0 : blocks.foldl (fun h cb => replaceFirst h cb.fullMatch cb.placeholder) html
          = applySubs html (blocks.map (fun b => (b.fullMatch, b.placeholder))) := by
        rw [applySubs, List.foldl_map]
      rw [h0, hdecomp]
      have hmf : blocks.map CodeBlockInfo.fullMatch
          = (blocks.map (fun b => (b.fullMatch, b.placeholder))).map Prod.fst := by
        rw [List.map_map]
        rfl
      rw [hmf]
      rw [applySubs_of_perm segs _ _ (hnd1'.of_map) H1 (List.Perm.refl _)]
      rw [List.map_map]
      rfl
    have hhb : blocks.foldl
        (fun acc cb =>
          match hl.codeToHtml (normalizeLanguage cb.language) cb.code with
          | Except.ok h => mapSet acc cb.placeholder h
          | Except.error _ => mapSet acc cb.placeholder cb.fullMatch)
        ([] : List Sub)
        = blocks.map (fun b => (b.placeholder, hlResult hl b)) := by
      have hext : blocks.foldl
          (fun acc cb =>
            match hl.codeToHtml (normalizeLanguage cb.language) cb.code with
            | Except.ok h => mapSet acc cb.placeholder h
            | Except.error _ => mapSet acc cb.placeholder cb.fullMatch)
          ([] : List Sub)
          = blocks.foldl (fun acc cb => mapSet acc cb.placeholder (hlResult hl cb))
            ([] : List Sub) := by
        apply List.foldl_ext
        intro acc cb _
        cases hc : hl.codeToHtml (normalizeLanguage cb.language) cb.code with
        | ok hh => simp [hlResult, hc]
        | error e => simp [hlResult, hc]
      rw [hext]
      have h1 : blocks.foldl (fun acc cb => mapSet acc cb.placeholder (hlResult hl cb))
          ([] : List Sub)
          = (blocks.map (fun b => (b.placeholder, hlResult hl b))).foldl
              (fun acc p => mapSet acc p.1 p.2) ([] : List Sub) := by
        rw [List.foldl_map]
      rw [h1, foldl_mapSet_fresh _ [] hnd2' (by simp)]
      simp
    have hph2 : applySubs (weave segs (blocks.map CodeBlockInfo.placeholder))
        (blocks.map (fun b => (b.placeholder, hlResult hl b)))
        = weave segs (blocks.map (hlResult hl)) := by
      have hmf : blocks.map CodeBlockInfo.placeholder
          = (blocks.map (fun b => (b.placeholder, hlResult hl b))).map Prod.fst := by
        rw [List.map_map]
        rfl
      rw [hmf]
      rw [applySubs_of_perm segs _ _ (hnd2'.of_map) H2 (List.Perm.refl _)]
      rw [List.map_map]
      rfl
    simp only [highlightCodeBlocks, hscan, hie, Bool.false_eq_true, if_false, hinit]
    rw [hph1, hhb, hph2]
  · intro b _ e he
    rw [hlResult, he]

set_option maxRecDepth 8192 in
/-- C8 witness for the amended claim: two code blocks, python
highlighting fails and json succeeds; the output keeps the python block
byte-for-byte in its slot and carries the highlighted json markup in the
other. -/
theorem highlightCodeBlocks_per_block_fallback_witness :
    scanCodeBlocks twoBlockHtml = twoBlockInfos ∧
    jsonOnlyHl.initRes = Except.ok () ∧
    twoBlockHtml = weave twoBlockSegs (twoBlockInfos.map CodeBlockInfo.fullMatch) ∧
    highlightCodeBlocks twoBlockHtml jsonOnlyHl
      = Except.ok (weave twoBlockSegs (twoBlockInfos.map (hlResult jsonOnlyHl)), []) ∧
    (twoBlockInfos.map (hlResult jsonOnlyHl)).getD 0 []
      = lit "<pre><code class=\"language-python\">print(1)</code></pre>" :=
  have h := highlightCodeBlocks_per_block_fallback twoBlockHtml jsonOnlyHl
    twoBlockSegs twoBlockInfos (by decide) (by decide) rfl (by decide)
    (by decide) (by decide) (by decide) (by decide)
  ⟨by decide, rfl, by decide, h.1, by decide⟩

/-! ## Claim theorems for the top-level convert operation -/

/-- C9 (corrected), counterexample.  The claim says the default output
path is the input path with its extension replaced by `.html`.  For the
input `notes.txt` the code's replacement only matches a trailing `.md`,
so `convert` writes to and returns `notes.txt` itself — not
`notes.html`. -/
theorem convert_default_output_keeps_txt_extension :
    convert (lit "notes.txt") none txtFs noRender idMd failingHl 10
      = some (Except.ok ⟨(lit "notes.txt", wrapInHtmlDocument (lit "hi") []),
          lit "notes.txt"⟩) ∧
    replaceMdWithHtml (lit "notes.txt") = lit "notes.txt" ∧
    lit "notes.txt" ≠ lit "notes.html" :=
  ⟨rfl, by decide, by decide⟩

/-- C9 (corrected), amended claim.  With an explicit output path,
`convert` writes to and returns that path.  With no explicit output path
it writes to and returns the input path with a trailing `.md` extension
(matched case-insensitively) replaced by `.html`; an input path not
ending in `.md` is used unchanged. -/
theorem convert_output_path_resolution
    (markdownFile : Str) (outputFile : Option Str) (fs : Str → Option Str)
    (render : Str → String → Option Str) (md : Str → Str) (hl : HighlighterModel)
    (fuel : Nat) (content htmlC : Str) (ds : List DiagramInfo)
    (hread : fs markdownFile = some content)
    (hex : extractMermaidDiagrams content fuel = some ds)
    (hconv : convertMarkdownToHtml content
        (ds.foldl (fun acc d =>
          match render d.mermaidCode d.diagramId with
          | some imagePath => mapSet acc d.startPos ⟨d.diagramId, imagePath⟩
          | none => mapSet acc d.startPos ⟨d.diagramId, []⟩) []) fs md hl
      = Except.ok htmlC) :
    convert markdownFile outputFile fs render md hl fuel
      = some (Except.ok ⟨(outputFile.getD (replaceMdWithHtml markdownFile), htmlC),
          outputFile.getD (replaceMdWithHtml markdownFile)⟩) ∧
    (∀ out, outputFile = some out →
      outputFile.getD (replaceMdWithHtml markdownFile) = out) ∧
    (endsWithMdCI markdownFile = true →
      replaceMdWithHtml markdownFile
        = markdownFile.take (markdownFile.length - 3) ++ lit ".html") ∧
    (endsWithMdCI markdownFile = false →
      replaceMdWithHtml markdownFile = markdownFile) := by
  refine ⟨?_, ?_, ?_, ?_⟩
  · simp only [convert, hread, hex, hconv]
  · intro out h
    rw [h]
    rfl
  · intro h
    rw [replaceMdWithHtml, if_pos h]
  · intro h
    rw [replaceMdWithHtml, if_neg (by simp [h])]

/-- C9 witness: converting `doc.MD` (uppercase extension) with no output
argument writes to and returns `doc.html`. -/
theorem convert_output_path_resolution_witness :
    mdFs (lit "doc.MD") = some (lit "hi") ∧
    extractMermaidDiagrams (lit "hi") 10 = some [] ∧
    convert (lit "doc.MD") none mdFs noRender idMd failingHl 10
      = some (Except.ok ⟨((none : Option Str).getD (replaceMdWithHtml (lit "doc.MD")),
          wrapInHtmlDocument (lit "hi") []),
          (none : Option Str).getD (replaceMdWithHtml (lit "doc.MD"))⟩) ∧
    replaceMdWithHtml (lit "doc.MD") = lit "doc.html" :=
  have h := convert_output_path_resolution (lit "doc.MD") none mdFs noRender idMd
    failingHl 10 (lit "hi") (wrapInHtmlDocument (lit "hi") []) [] rfl (by decide) rfl
  ⟨rfl, by decide, h.1, by decide⟩

end MdToHtml
